import Mathlib

/-!
Verification development for the `tonks` scheduler core
(`src/scheduler/mod.rs`).

The Rust code is shallowly embedded as executable Lean definitions:

* `Vec<u8>` reader counts become `List Nat` whose entries are `u8`
  values; `u8` arithmetic is made explicit as arithmetic modulo 256
  (`x += 1` becomes `(x + 1) % 256`, `x -= 1` becomes
  `(x + 255) % 256`).
* `BitSet` becomes `Finset Nat`.
* `HashMap<ResourceId, InternalResourceId>` becomes an association
  list `List (Nat × Nat)`; resource handles (`shred::ResourceId`) are
  represented by natural numbers.
* In-place mutation (`&mut`) becomes explicit state passing; a Rust
  function which can abort the process (indexing panic,
  `unimplemented`) is modelled with `Option`, `none` standing for the
  abort.
* The message-driven dispatch loop of `Scheduler::execute` becomes a
  small-step transition relation; the nondeterministic arrival order
  of worker completion messages is the nondeterminism of the relation.
-/

set_option maxHeartbeats 1000000

namespace Tonks

/-- The conflict ledger owned by the scheduler: `reads_held` models the
`Vec<u8>` of per-resource reader counts (each entry is a `u8` value,
so all arithmetic on it is modulo 256) and `writes_held` models the
`BitSet` of exclusively held resources.  Both are indexed by the
interned `InternalResourceId`. -/
structure Ledger where
  reads_held : List Nat
  writes_held : Finset Nat
deriving DecidableEq

/-- The loop `for read in reads { reads_held[read.0] += 1; }` of
`try_obtain_resources`: each listed resource id gets its `u8` reader
count incremented (wrapping, as `u8` addition does in release builds).
`List.set` is a no-op out of bounds; in the scheduler every interned
id is in bounds (the vector is sized to the interner). -/
def incReads (reads : List Nat) (rh : List Nat) : List Nat :=
  reads.foldl (fun acc r => acc.set r ((acc.getD r 0 + 1) % 256)) rh

/-- The loop `for read in reads { self.reads_held[read.0] -= 1; }` of
`release_resources_for_system` / `release_resources_for_stage`:
each listed resource id gets its `u8` reader count decremented
(`x - 1 = (x + 255) % 256` in `u8` arithmetic). -/
def decReads (reads : List Nat) (rh : List Nat) : List Nat :=
  reads.foldl (fun acc r => acc.set r ((acc.getD r 0 + 255) % 256)) rh

/-- The loop `for write in writes { writes_held.insert(write.0); }`. -/
def setWrites (writes : List Nat) (wh : Finset Nat) : Finset Nat :=
  writes.foldl (fun acc w => insert w acc) wh

/-- The loop `for write in writes { self.writes_held.remove(write.0); }`. -/
def eraseWrites (writes : List Nat) (wh : Finset Nat) : Finset Nat :=
  writes.foldl (fun acc w => acc.erase w) wh

/-- `try_obtain_resources` from `src/scheduler/mod.rs`: first every
resource in `reads` chained with `writes` is checked against the held
write set, then every resource in `writes` is checked against the
reader counts; only if no check fired is the ledger updated.  The Rust
function takes the ledger by `&mut` and returns `Result<(), ()>`; here
the returned `Bool` is `true` for `Ok` and the (possibly updated)
ledger is returned alongside. -/
def try_obtain_resources (reads writes : List Nat) (led : Ledger) :
    Bool × Ledger :=
  if (reads ++ writes).any (fun r => decide (r ∈ led.writes_held)) then
    (false, led)
  else if writes.any (fun w => decide (0 < led.reads_held.getD w 0)) then
    (false, led)
  else
    (true, ⟨incReads reads led.reads_held, setWrites writes led.writes_held⟩)

/-- The common body of `release_resources_for_system` and
`release_resources_for_stage`: decrement the reader count of every
resource in `reads`, remove every resource in `writes` from the held
write set. -/
def release_resources (reads writes : List Nat) (led : Ledger) : Ledger :=
  ⟨decReads reads led.reads_held, eraseWrites writes led.writes_held⟩

/-! Helper lemmas about `List.getD` and `List.set`. -/

theorem getD_set_self (l : List Nat) (i v : Nat) (h : i < l.length) :
    (l.set i v).getD i 0 = v := by
  simp [List.getD_eq_getElem?_getD, List.getElem?_set, h]

theorem getD_set_ne (l : List Nat) (i j v : Nat) (h : i ≠ j) :
    (l.set i v).getD j 0 = l.getD j 0 := by
  simp [List.getD_eq_getElem?_getD, List.getElem?_set, h]

theorem getD_lt_256 (rh : List Nat) (h256 : ∀ x ∈ rh, x < 256) (i : Nat) :
    rh.getD i 0 < 256 := by
  by_cases hi : i < rh.length
  · refine h256 _ ?_
    rw [List.getD_eq_getElem?_getD, List.getElem?_eq_getElem hi]
    exact List.getElem_mem hi
  · rw [List.getD_eq_getElem?_getD, List.getElem?_eq_none (by omega)]
    norm_num

theorem getD_oob (l : List Nat) (i : Nat) (h : l.length ≤ i) :
    l.getD i 0 = 0 := by
  rw [List.getD_eq_getElem?_getD, List.getElem?_eq_none h]
  rfl

theorem entries_set_lt (l : List Nat) (i v : Nat) (hv : v < 256)
    (h : ∀ x ∈ l, x < 256) : ∀ x ∈ l.set i v, x < 256 := by
  intro x hx
  rcases List.mem_or_eq_of_mem_set hx with h1 | h1
  · exact h x h1
  · omega

/-! Pointwise characterisation of the ledger-updating loops. -/

theorem incReads_length (rs rh : List Nat) :
    (incReads rs rh).length = rh.length := by
  induction rs generalizing rh with
  | nil => rfl
  | cons r rs ih =>
    rw [show incReads (r :: rs) rh
        = incReads rs (rh.set r ((rh.getD r 0 + 1) % 256)) from rfl,
      ih, List.length_set]

theorem decReads_length (rs rh : List Nat) :
    (decReads rs rh).length = rh.length := by
  induction rs generalizing rh with
  | nil => rfl
  | cons r rs ih =>
    rw [show decReads (r :: rs) rh
        = decReads rs (rh.set r ((rh.getD r 0 + 255) % 256)) from rfl,
      ih, List.length_set]

theorem incReads_entries (rs rh : List Nat) (h256 : ∀ x ∈ rh, x < 256) :
    ∀ x ∈ incReads rs rh, x < 256 := by
  induction rs generalizing rh with
  | nil => exact h256
  | cons r rs ih =>
    rw [show incReads (r :: rs) rh
        = incReads rs (rh.set r ((rh.getD r 0 + 1) % 256)) from rfl]
    exact ih _ (entries_set_lt _ _ _ (Nat.mod_lt _ (by norm_num)) h256)

theorem decReads_entries (rs rh : List Nat) (h256 : ∀ x ∈ rh, x < 256) :
    ∀ x ∈ decReads rs rh, x < 256 := by
  induction rs generalizing rh with
  | nil => exact h256
  | cons r rs ih =>
    rw [show decReads (r :: rs) rh
        = decReads rs (rh.set r ((rh.getD r 0 + 255) % 256)) from rfl]
    exact ih _ (entries_set_lt _ _ _ (Nat.mod_lt _ (by norm_num)) h256)

theorem incReads_getD (rs rh : List Nat) (i : Nat)
    (hb : ∀ r ∈ rs, r < rh.length) (h256 : ∀ x ∈ rh, x < 256) :
    (incReads rs rh).getD i 0 = (rh.getD i 0 + rs.count i) % 256 := by
  induction rs generalizing rh with
  | nil =>
    have := getD_lt_256 rh h256 i
    simp only [incReads, List.foldl_nil, List.count_nil]
    omega
  | cons r rs ih =>
    have hr : r < rh.length := hb r (by simp)
    rw [show incReads (r :: rs) rh
        = incReads rs (rh.set r ((rh.getD r 0 + 1) % 256)) from rfl]
    rw [ih (rh.set r ((rh.getD r 0 + 1) % 256))
      (by intro a ha; rw [List.length_set]; exact hb a (by simp [ha]))
      (entries_set_lt _ _ _ (Nat.mod_lt _ (by norm_num)) h256)]
    by_cases hri : r = i
    · subst hri
      rw [getD_set_self _ _ _ hr, List.count_cons]
      simp only [beq_self_eq_true, if_true]
      omega
    · rw [getD_set_ne _ _ _ _ hri, List.count_cons]
      simp only [beq_iff_eq, hri, if_false]
      omega

theorem decReads_getD (rs rh : List Nat) (i : Nat)
    (hb : ∀ r ∈ rs, r < rh.length) (h256 : ∀ x ∈ rh, x < 256) :
    (decReads rs rh).getD i 0 = (rh.getD i 0 + 255 * rs.count i) % 256 := by
  induction rs generalizing rh with
  | nil =>
    have := getD_lt_256 rh h256 i
    simp only [decReads, List.foldl_nil, List.count_nil]
    omega
  | cons r rs ih =>
    have hr : r < rh.length := hb r (by simp)
    rw [show decReads (r :: rs) rh
        = decReads rs (rh.set r ((rh.getD r 0 + 255) % 256)) from rfl]
    rw [ih (rh.set r ((rh.getD r 0 + 255) % 256))
      (by intro a ha; rw [List.length_set]; exact hb a (by simp [ha]))
      (entries_set_lt _ _ _ (Nat.mod_lt _ (by norm_num)) h256)]
    by_cases hri : r = i
    · subst hri
      rw [getD_set_self _ _ _ hr, List.count_cons]
      simp only [beq_self_eq_true, if_true]
      omega
    · rw [getD_set_ne _ _ _ _ hri, List.count_cons]
      simp only [beq_iff_eq, hri, if_false]
      omega

theorem setWrites_eq (ws : List Nat) (wh : Finset Nat) :
    setWrites ws wh = wh ∪ ws.toFinset := by
  induction ws generalizing wh with
  | nil => simp [setWrites]
  | cons w ws ih =>
    rw [show setWrites (w :: ws) wh = setWrites ws (insert w wh) from rfl, ih]
    ext a
    simp only [Finset.mem_union, Finset.mem_insert, List.toFinset_cons,
      List.mem_toFinset]
    tauto

theorem eraseWrites_eq (ws : List Nat) (wh : Finset Nat) :
    eraseWrites ws wh = wh \ ws.toFinset := by
  induction ws generalizing wh with
  | nil => simp [eraseWrites]
  | cons w ws ih =>
    rw [show eraseWrites (w :: ws) wh = eraseWrites ws (wh.erase w) from rfl,
      ih]
    ext a
    simp only [Finset.mem_sdiff, Finset.mem_erase, List.toFinset_cons,
      List.mem_toFinset, Finset.mem_insert]
    tauto

theorem list_eq_of_getD (l₁ l₂ : List Nat) (hlen : l₁.length = l₂.length)
    (h : ∀ i, l₁.getD i 0 = l₂.getD i 0) : l₁ = l₂ := by
  refine List.ext_getElem hlen ?_
  intro n h₁ h₂
  have hn := h n
  rwa [List.getD_eq_getElem?_getD, List.getD_eq_getElem?_getD,
    List.getElem?_eq_getElem h₁, List.getElem?_eq_getElem h₂] at hn

/-! Characterisation of `try_obtain_resources`. -/

theorem try_obtain_fst_false_iff (reads writes : List Nat) (led : Ledger) :
    (try_obtain_resources reads writes led).1 = false ↔
      (∃ r ∈ reads ++ writes, r ∈ led.writes_held) ∨
        ∃ w ∈ writes, 0 < led.reads_held.getD w 0 := by
  unfold try_obtain_resources
  by_cases h1 :
      ((reads ++ writes).any fun r => decide (r ∈ led.writes_held)) = true
  · rw [if_pos h1]
    simp only [List.any_eq_true, decide_eq_true_eq] at h1
    exact ⟨fun _ => Or.inl h1, fun _ => rfl⟩
  · rw [if_neg h1]
    by_cases h2 :
        (writes.any fun w => decide (0 < led.reads_held.getD w 0)) = true
    · rw [if_pos h2]
      simp only [List.any_eq_true, decide_eq_true_eq] at h2
      exact ⟨fun _ => Or.inr h2, fun _ => rfl⟩
    · rw [if_neg h2]
      simp only [List.any_eq_true, decide_eq_true_eq] at h1 h2
      push_neg at h1 h2
      constructor
      · intro h
        simp at h
      · rintro (⟨r, hr, hw⟩ | ⟨w, hw, hp⟩)
        · exact absurd hw (h1 r hr)
        · have := h2 w hw
          omega

theorem try_obtain_fail_unchanged (reads writes : List Nat) (led : Ledger)
    (h : (try_obtain_resources reads writes led).1 = false) :
    (try_obtain_resources reads writes led).2 = led := by
  unfold try_obtain_resources at h ⊢
  by_cases h1 :
      ((reads ++ writes).any fun r => decide (r ∈ led.writes_held)) = true
  · rw [if_pos h1]
  · rw [if_neg h1] at h ⊢
    by_cases h2 :
        (writes.any fun w => decide (0 < led.reads_held.getD w 0)) = true
    · rw [if_pos h2]
    · rw [if_neg h2] at h
      simp at h

theorem try_obtain_success (reads writes : List Nat) (led : Ledger)
    (h : (try_obtain_resources reads writes led).1 = true) :
    (try_obtain_resources reads writes led).2
        = ⟨incReads reads led.reads_held, setWrites writes led.writes_held⟩
      ∧ (∀ r ∈ reads ++ writes, r ∉ led.writes_held)
      ∧ ∀ w ∈ writes, led.reads_held.getD w 0 = 0 := by
  unfold try_obtain_resources at h ⊢
  by_cases h1 :
      ((reads ++ writes).any fun r => decide (r ∈ led.writes_held)) = true
  · rw [if_pos h1] at h
    simp at h
  · rw [if_neg h1] at h ⊢
    by_cases h2 :
        (writes.any fun w => decide (0 < led.reads_held.getD w 0)) = true
    · rw [if_pos h2] at h
      simp at h
    · rw [if_neg h2]
      simp only [List.any_eq_true, decide_eq_true_eq] at h1 h2
      push_neg at h1 h2
      refine ⟨rfl, h1, ?_⟩
      intro w hw
      have := h2 w hw
      omega

/-! Claim theorems about the conflict ledger. -/

/-- C1: for every pair of resource-id lists (reads `R`, writes `W`) and
every ledger state, `try_obtain_resources` returns the conflict error
(`false`, i.e. Rust's `Err`) exactly when some resource in `R ++ W`
has its `writes_held` bit set or some resource in `W` has a positive
reader count; on success it increments (`u8`, modulo 256) the reader
count of every occurrence of every `r ∈ R` and inserts every `w ∈ W`
into `writes_held`; on conflict the ledger is returned completely
unchanged, so acquisition is all-or-nothing. -/
theorem try_obtain_resources_correct (reads writes : List Nat) (led : Ledger)
    (hb : ∀ r ∈ reads ++ writes, r < led.reads_held.length)
    (h256 : ∀ x ∈ led.reads_held, x < 256) :
    ((try_obtain_resources reads writes led).1 = false ↔
      (∃ r ∈ reads ++ writes, r ∈ led.writes_held) ∨
        ∃ w ∈ writes, 0 < led.reads_held.getD w 0)
    ∧ ((try_obtain_resources reads writes led).1 = false →
        (try_obtain_resources reads writes led).2 = led)
    ∧ ((try_obtain_resources reads writes led).1 = true →
        (∀ i, (try_obtain_resources reads writes led).2.reads_held.getD i 0
            = (led.reads_held.getD i 0 + reads.count i) % 256)
        ∧ (try_obtain_resources reads writes led).2.writes_held
            = led.writes_held ∪ writes.toFinset) := by
  refine ⟨try_obtain_fst_false_iff reads writes led,
    try_obtain_fail_unchanged reads writes led, ?_⟩
  intro hs
  obtain ⟨heq, -, -⟩ := try_obtain_success reads writes led hs
  rw [heq]
  constructor
  · intro i
    exact incReads_getD reads led.reads_held i
      (fun r hr => hb r (by simp [hr])) h256
  · exact setWrites_eq writes led.writes_held

/-- Witness for C1 at a concrete input: acquiring read `0` and write `1`
on a two-resource ledger with no holds succeeds and sets exactly bit
`1` of `writes_held`. -/
theorem try_obtain_resources_correct_witness :
    (try_obtain_resources [0] [1] ⟨[0, 0], ∅⟩).2.writes_held
      = ∅ ∪ ([1] : List Nat).toFinset :=
  ((try_obtain_resources_correct [0] [1] ⟨[0, 0], ∅⟩
    (by decide) (by decide)).2.2 (by decide)).2

/-- C3: releasing with the same read and write lists that a successful
`try_obtain_resources` acquired (as `release_resources_for_system` and
`release_resources_for_stage` do, their shared body being
`release_resources`) restores the ledger exactly to its state before
the acquisition. -/
theorem release_resources_inverse (reads writes : List Nat) (led : Ledger)
    (hb : ∀ r ∈ reads, r < led.reads_held.length)
    (h256 : ∀ x ∈ led.reads_held, x < 256)
    (hs : (try_obtain_resources reads writes led).1 = true) :
    release_resources reads writes (try_obtain_resources reads writes led).2
      = led := by
  obtain ⟨heq, hnw, -⟩ := try_obtain_success reads writes led hs
  rw [heq]
  unfold release_resources
  have hreads : decReads reads (incReads reads led.reads_held)
      = led.reads_held := by
    refine list_eq_of_getD _ _ ?_ ?_
    · rw [decReads_length, incReads_length]
    · intro i
      rw [decReads_getD _ _ _
          (by intro r hr; rw [incReads_length]; exact hb r hr)
          (incReads_entries _ _ h256),
        incReads_getD _ _ _ hb h256]
      have := getD_lt_256 led.reads_held h256 i
      omega
  have hwrites : eraseWrites writes (setWrites writes led.writes_held)
      = led.writes_held := by
    rw [setWrites_eq, eraseWrites_eq]
    ext a
    simp only [Finset.mem_sdiff, Finset.mem_union, List.mem_toFinset]
    constructor
    · rintro ⟨ha | ha, hna⟩
      · exact ha
      · exact absurd ha hna
    · intro ha
      exact ⟨Or.inl ha, fun hw => hnw a (by simp [hw]) ha⟩
  rw [hreads, hwrites]

/-- Witness for C3 at a concrete input: acquire reads `[0, 0]` and
write `[1]` on a two-resource ledger, then release the same lists;
the ledger returns to its initial state. -/
theorem release_resources_inverse_witness :
    release_resources [0, 0] [1]
        (try_obtain_resources [0, 0] [1] ⟨[7, 0], ∅⟩).2
      = ⟨[7, 0], ∅⟩ :=
  release_resources_inverse [0, 0] [1] ⟨[7, 0], ∅⟩
    (by decide) (by decide) (by decide)

/-- C10: reader counts are `u8` values, so acquisition arithmetic is
exact only while at most 255 simultaneous read holds exist per
resource (counting every occurrence in a possibly-duplicated read
list).  Iterating the successful single-read acquisition
`try_obtain_resources [0] []` on a one-resource ledger: after 255
acquisitions the stored count is 255 and still exact, but the 256th
acquisition overflows the `u8` counter and wraps it to 0 instead of
256. -/
theorem reads_held_u8_overflow :
    ((fun led => (try_obtain_resources [0] [] led).2)^[255]
        ⟨[0], ∅⟩).reads_held = [255]
    ∧ ((fun led => (try_obtain_resources [0] [] led).2)^[256]
        ⟨[0], ∅⟩).reads_held = [0] := by
  have hf : ∀ x : Nat,
      (try_obtain_resources [0] [] ⟨[x], ∅⟩).2 = ⟨[(x + 1) % 256], ∅⟩ := by
    intro x
    simp [try_obtain_resources, incReads, setWrites]
  have key : ∀ n : Nat,
      (fun led => (try_obtain_resources [0] [] led).2)^[n] ⟨[0], ∅⟩
        = ⟨[n % 256], ∅⟩ := by
    intro n
    induction n with
    | zero => rfl
    | succ n ih =>
      rw [Function.iterate_succ_apply', ih]
      show (try_obtain_resources [0] [] ⟨[n % 256], ∅⟩).2 = _
      rw [hf (n % 256)]
      have hmod : (n % 256 + 1) % 256 = (n + 1) % 256 := by omega
      rw [hmod]
  rw [key 255, key 256]
  norm_num

/-! The resource-id interner of `Scheduler::new`. -/

/-- The interner-construction loop of `Scheduler::new`: for every
handle `dep` in the walk, `resource_id_mappings.entry(dep.clone())
.or_insert_with(|| { let r = counter; counter += 1; InternalResourceId(r) })`.
The `HashMap` is modelled as an association list in insertion order;
`counter` always equals the number of entries inserted so far, i.e.
the length of the accumulator. -/
def internGo (acc : List (Nat × Nat)) : List Nat → List (Nat × Nat)
  | [] => acc
  | h :: t =>
    if (acc.lookup h).isSome then internGo acc t
    else internGo (acc ++ [(h, acc.length)]) t

/-- The full interner map built from a walk over the declared handles.
In `Scheduler::new` the walk is `read_deps.iter().flatten()
.chain(write_deps.iter().flatten())`. -/
def internHandles (walk : List Nat) : List (Nat × Nat) :=
  internGo [] walk

/-- The distinct elements of a list in order of first occurrence
(reference definition used to state what order the interner assigns
ids in). -/
def firstGo (acc : List Nat) : List Nat → List Nat
  | [] => acc
  | h :: t => if h ∈ acc then firstGo acc t else firstGo (acc ++ [h]) t

def firstOccs (walk : List Nat) : List Nat :=
  firstGo [] walk

/-- The walk order asserted by the specification for interning:
stage-iteration order, i.e. stage by stage — the handles declared by
the systems of stage 0 (its read lists, then its write lists), then
those of stage 1, and so on.  This definition follows the
specification's words, not the source, and exists only to be compared
with the walk the source actually performs (all read lists of all
stages first, then all write lists).  The first argument is the list
of stage sizes; deps are indexed in flattened system order. -/
def stageIterWalk :
    List Nat → List (List Nat) → List (List Nat) → Nat → List Nat
  | [], _, _, _ => []
  | sz :: rest, rd, wd, c =>
    ((List.range sz).map (fun j => rd.getD (c + j) [])).flatten ++
      ((List.range sz).map (fun j => wd.getD (c + j) [])).flatten ++
      stageIterWalk rest rd wd (c + sz)

theorem lookup_cons_eq (h a b : Nat) (t : List (Nat × Nat)) :
    List.lookup h ((a, b) :: t) = if h = a then some b else List.lookup h t := by
  rw [List.lookup_cons]
  by_cases hab : h = a
  · rw [if_pos hab, show (h == a) = true by simp [hab]]
  · rw [if_neg hab, show (h == a) = false by simp [hab]]

theorem lookup_isSome_iff (acc : List (Nat × Nat)) (h : Nat) :
    (acc.lookup h).isSome = true ↔ h ∈ acc.map Prod.fst := by
  induction acc with
  | nil => simp [List.lookup]
  | cons p t ih =>
    obtain ⟨a, b⟩ := p
    rw [lookup_cons_eq]
    by_cases hab : h = a
    · rw [if_pos hab]
      simp [hab]
    · rw [if_neg hab]
      simp only [List.map_cons, List.mem_cons]
      rw [ih]
      constructor
      · exact Or.inr
      · rintro (hc | hc)
        · exact absurd hc hab
        · exact hc

theorem mem_of_lookup (l : List (Nat × Nat)) (h v : Nat)
    (hl : l.lookup h = some v) : (h, v) ∈ l := by
  induction l with
  | nil => simp [List.lookup] at hl
  | cons p t ih =>
    obtain ⟨a, b⟩ := p
    rw [lookup_cons_eq] at hl
    by_cases hab : h = a
    · rw [if_pos hab] at hl
      injection hl with hv
      subst hab
      subst hv
      exact List.mem_cons_self _ _
    · rw [if_neg hab] at hl
      exact List.mem_cons_of_mem _ (ih hl)

theorem internGo_keys (w : List Nat) : ∀ acc : List (Nat × Nat),
    (internGo acc w).map Prod.fst = firstGo (acc.map Prod.fst) w := by
  induction w with
  | nil => intro acc; rfl
  | cons h t ih =>
    intro acc
    by_cases hm : h ∈ acc.map Prod.fst
    · simp only [internGo, firstGo]
      rw [if_pos ((lookup_isSome_iff acc h).mpr hm), if_pos hm]
      exact ih acc
    · simp only [internGo, firstGo]
      rw [if_neg (by rw [lookup_isSome_iff]; exact hm), if_neg hm]
      have := ih (acc ++ [(h, acc.length)])
      simpa using this

theorem internGo_vals (w : List Nat) : ∀ acc : List (Nat × Nat),
    acc.map Prod.snd = List.range acc.length →
    (internGo acc w).map Prod.snd
      = List.range (internGo acc w).length := by
  induction w with
  | nil => intro acc hacc; exact hacc
  | cons h t ih =>
    intro acc hacc
    by_cases hm : ((acc.lookup h).isSome : Prop)
    · simp only [internGo]
      rw [if_pos hm]
      exact ih acc hacc
    · simp only [internGo]
      rw [if_neg hm]
      refine ih _ ?_
      rw [List.map_append, hacc, List.length_append]
      simp [List.range_succ]

theorem firstGo_nodup (w : List Nat) : ∀ acc : List Nat,
    acc.Nodup → (firstGo acc w).Nodup := by
  induction w with
  | nil => intro acc hacc; exact hacc
  | cons h t ih =>
    intro acc hacc
    by_cases hm : h ∈ acc
    · simp only [firstGo]
      rw [if_pos hm]
      exact ih acc hacc
    · simp only [firstGo]
      rw [if_neg hm]
      refine ih _ ?_
      simp [List.nodup_append, hacc, hm]

theorem firstGo_mem (w : List Nat) : ∀ (acc : List Nat) (x : Nat),
    x ∈ firstGo acc w ↔ x ∈ acc ∨ x ∈ w := by
  induction w with
  | nil => intro acc x; simp [firstGo]
  | cons h t ih =>
    intro acc x
    by_cases hm : h ∈ acc
    · simp only [firstGo]
      rw [if_pos hm, ih]
      simp only [List.mem_cons]
      constructor
      · rintro (hc | hc)
        · exact Or.inl hc
        · exact Or.inr (Or.inr hc)
      · rintro (hc | hc | hc)
        · exact Or.inl hc
        · exact Or.inl (hc ▸ hm)
        · exact Or.inr hc
    · simp only [firstGo]
      rw [if_neg hm, ih]
      simp only [List.mem_append, List.mem_singleton, List.mem_cons]
      tauto

theorem internHandles_snd_lt (w : List Nat) (p : Nat × Nat)
    (hp : p ∈ internHandles w) : p.2 < (internHandles w).length := by
  have hv := internGo_vals w [] rfl
  have hm : p.2 ∈ (internHandles w).map Prod.snd :=
    List.mem_map_of_mem Prod.snd hp
  rw [internHandles] at hm ⊢
  rw [hv] at hm
  exact List.mem_range.mp hm

theorem internHandles_lookup_isSome (w : List Nat) (h : Nat) (hw : h ∈ w) :
    ((internHandles w).lookup h).isSome := by
  rw [lookup_isSome_iff]
  rw [internHandles, internGo_keys w []]
  exact (firstGo_mem w [] h).mpr (Or.inr hw)

/-! The scheduler data model. -/

/-- A system as seen by the scheduler core: an opaque runnable together
with its `reads()` and `writes()` queries.  Modelled from the spec:
the `RunNow` trait lives in `run_now.rs` (not part of the covered
sources); per the spec a system exposes stable
`reads() → collection<ResourceHandle>` and `writes()` queries, here
lists of handles.  The runnable body is irrelevant to scheduling and
is not modelled. -/
structure SysObj where
  reads : List Nat
  writes : List Nat
deriving DecidableEq

/-- `Task` from `src/scheduler/mod.rs`: either a stage or a oneshot
system. -/
inductive Task where
  | stage (id : Nat)
  | oneshot (id : Nat)
deriving DecidableEq

/-- Indexing `resource_id_mappings[&id]` on the `HashMap`.  The Rust
index operator aborts on a missing key; within `Scheduler::new` every
looked-up handle has just been interned (see
`internHandles_lookup_isSome`), so the `getD` default is never
taken there. -/
def lookupId (m : List (Nat × Nat)) (h : Nat) : Nat :=
  (m.lookup h).getD 0

/-- The per-system interned dependency list: `read_deps[counter]
.clone().into_iter().map(|id| resource_id_mappings[&id]).collect()`
(`getD k []` models the `Vec` index, which is in bounds whenever the
deps vectors cover all systems). -/
def sysDeps (deps : List (List Nat)) (m : List (Nat × Nat)) (k : Nat) :
    List Nat :=
  (deps.getD k []).map (lookupId m)

/-- The tables accumulated by the stage/system loop of
`Scheduler::new`. -/
structure StageTables where
  system_reads : List (List Nat)
  system_writes : List (List Nat)
  stage_reads : List (List Nat)
  stage_writes : List (List Nat)
  stage_systems : List (List Nat)
deriving DecidableEq

/-- The second loop of `Scheduler::new`: for each stage, for each of
its systems (`counter` being the running flattened system index), push
the interned read/write lists onto the per-system tables, extend the
stage's read/write lists with them, and record the stage's system
ids.  `c` is the value of `counter` when the loop reaches this group
of stages. -/
def buildStages (rd wd : List (List Nat)) (m : List (Nat × Nat)) :
    List (List SysObj) → Nat → StageTables
  | [], _ => ⟨[], [], [], [], []⟩
  | stage :: rest, c =>
    let ids := (List.range stage.length).map (fun j => c + j)
    let srs := ids.map (sysDeps rd m)
    let sws := ids.map (sysDeps wd m)
    let t := buildStages rd wd m rest (c + stage.length)
    ⟨srs ++ t.system_reads, sws ++ t.system_writes,
      srs.flatten :: t.stage_reads, sws.flatten :: t.stage_writes,
      ids :: t.stage_systems⟩

/-- `Scheduler::create_task_queue`: one `Task::Stage(k)` entry per
stage, in stage order. -/
def create_task_queue (stages : List (List Nat)) : List Task :=
  (List.range stages.length).map Task.stage

/-- The `Scheduler` struct of `src/scheduler/mod.rs` (the channel
endpoints and the bump allocator carry no scheduling state and are
not modelled; `runnning_systems` keeps the source's spelling). -/
structure Scheduler where
  task_queue : List Task
  starting_queue : List Task
  runnning_systems : Nat
  writes_held : Finset Nat
  reads_held : List Nat
  resource_id_mappings : List (Nat × Nat)
  systems : List SysObj
  stages : List (List Nat)
  system_reads : List (List Nat)
  system_writes : List (List Nat)
  stage_reads : List (List Nat)
  stage_writes : List (List Nat)
  original_system_count : Nat
  temp_system_id_counter : Nat
deriving DecidableEq

/-- `Scheduler::new`: intern the resource ids by walking all read
dep lists then all write dep lists, build the per-system and
per-stage tables stage by stage, and initialise the ledger (empty
write set, all reader counts zero) and the temp-system counter. -/
def Scheduler.new (stages : List (List SysObj))
    (read_deps write_deps : List (List Nat)) : Scheduler :=
  let m := internHandles (read_deps.flatten ++ write_deps.flatten)
  let t := buildStages read_deps write_deps m stages 0
  let systems := stages.flatten
  { task_queue := []
    starting_queue := create_task_queue t.stage_systems
    runnning_systems := 0
    writes_held := ∅
    reads_held := List.replicate m.length 0
    resource_id_mappings := m
    systems := systems
    stages := t.stage_systems
    system_reads := t.system_reads
    system_writes := t.system_writes
    stage_reads := t.stage_reads
    stage_writes := t.stage_writes
    original_system_count := systems.length
    temp_system_id_counter := systems.length }

/-- C5 (amended): the interner built by `Scheduler::new` assigns each
distinct declared handle a unique id, the ids are exactly the
consecutive integers `0, 1, ..., n-1` in order, and the order is the
order of first occurrence in the walk the source performs — all
declared read handles in flattened system order followed by all
declared write handles in flattened system order (not per-stage
iteration order; see the counterexample). -/
theorem interner_assigns_consecutive_ids (stages : List (List SysObj))
    (read_deps write_deps : List (List Nat)) :
    (Scheduler.new stages read_deps write_deps).resource_id_mappings
        = internHandles (read_deps.flatten ++ write_deps.flatten)
    ∧ ((Scheduler.new stages read_deps write_deps).resource_id_mappings).map
          Prod.fst
        = firstOccs (read_deps.flatten ++ write_deps.flatten)
    ∧ ((Scheduler.new stages read_deps write_deps).resource_id_mappings).map
          Prod.snd
        = List.range
            ((Scheduler.new stages read_deps write_deps).resource_id_mappings).length
    ∧ (firstOccs (read_deps.flatten ++ write_deps.flatten)).Nodup := by
  refine ⟨rfl, ?_, ?_, ?_⟩
  · exact internGo_keys _ []
  · exact internGo_vals _ [] rfl
  · exact firstGo_nodup _ [] List.nodup_nil

/-- Counterexample to C5 as stated: one system in stage 0 writing
handle `0` and one system in stage 1 reading handle `1`.  In
stage-iteration order handle `0` (declared by the earlier stage) is
encountered first, yet `Scheduler::new` — which walks all read lists
before any write list — assigns it the larger id: handle `1` gets id
`0` and handle `0` gets id `1`. -/
theorem interner_walk_order_counterexample :
    stageIterWalk [1, 1] [[], [1]] [[0], []] 0 = [0, 1]
    ∧ (Scheduler.new [[⟨[], [0]⟩], [⟨[1], []⟩]]
          [[], [1]] [[0], []]).resource_id_mappings.lookup 0 = some 1
    ∧ (Scheduler.new [[⟨[], [0]⟩], [⟨[1], []⟩]]
          [[], [1]] [[0], []]).resource_id_mappings.lookup 1 = some 0 := by
  decide

/-! Structural lemmas about `buildStages`. -/

theorem getD_map_range (n k : Nat) (f : Nat → List Nat) (h : k < n) :
    ((List.range n).map f).getD k [] = f k := by
  rw [List.getD_eq_getElem?_getD, List.getElem?_map, List.getElem?_range h]
  rfl

theorem buildStages_system_reads (rd wd : List (List Nat))
    (m : List (Nat × Nat)) : ∀ (ss : List (List SysObj)) (c : Nat),
    (buildStages rd wd m ss c).system_reads
      = (List.range (ss.map List.length).sum).map
          (fun k => sysDeps rd m (c + k)) := by
  intro ss
  induction ss with
  | nil => intro c; rfl
  | cons stage rest ih =>
    intro c
    show ((List.range stage.length).map (fun j => c + j)).map (sysDeps rd m)
        ++ (buildStages rd wd m rest (c + stage.length)).system_reads = _
    rw [ih (c + stage.length)]
    simp only [List.map_cons, List.sum_cons, List.range_add, List.map_append,
      List.map_map]
    congr 1
    refine List.map_congr_left ?_
    intro k _
    simp only [Function.comp]
    rw [Nat.add_assoc]

theorem buildStages_system_writes (rd wd : List (List Nat))
    (m : List (Nat × Nat)) : ∀ (ss : List (List SysObj)) (c : Nat),
    (buildStages rd wd m ss c).system_writes
      = (List.range (ss.map List.length).sum).map
          (fun k => sysDeps wd m (c + k)) := by
  intro ss
  induction ss with
  | nil => intro c; rfl
  | cons stage rest ih =>
    intro c
    show ((List.range stage.length).map (fun j => c + j)).map (sysDeps wd m)
        ++ (buildStages rd wd m rest (c + stage.length)).system_writes = _
    rw [ih (c + stage.length)]
    simp only [List.map_cons, List.sum_cons, List.range_add, List.map_append,
      List.map_map]
    congr 1
    refine List.map_congr_left ?_
    intro k _
    simp only [Function.comp]
    rw [Nat.add_assoc]

theorem buildStages_stage_reads_getD (rd wd : List (List Nat))
    (m : List (Nat × Nat)) : ∀ (ss : List (List SysObj)) (c i : Nat),
    (buildStages rd wd m ss c).stage_reads.getD i []
      = (((buildStages rd wd m ss c).stage_systems.getD i []).map
          (sysDeps rd m)).flatten := by
  intro ss
  induction ss with
  | nil => intro c i; simp [buildStages]
  | cons stage rest ih =>
    intro c i
    cases i with
    | zero => rfl
    | succ i =>
      show (buildStages rd wd m rest (c + stage.length)).stage_reads.getD i []
          = _
      exact ih (c + stage.length) i

theorem buildStages_stage_writes_getD (rd wd : List (List Nat))
    (m : List (Nat × Nat)) : ∀ (ss : List (List SysObj)) (c i : Nat),
    (buildStages rd wd m ss c).stage_writes.getD i []
      = (((buildStages rd wd m ss c).stage_systems.getD i []).map
          (sysDeps wd m)).flatten := by
  intro ss
  induction ss with
  | nil => intro c i; simp [buildStages]
  | cons stage rest ih =>
    intro c i
    cases i with
    | zero => rfl
    | succ i =>
      show (buildStages rd wd m rest (c + stage.length)).stage_writes.getD i []
          = _
      exact ih (c + stage.length) i

theorem buildStages_stage_systems_bound (rd wd : List (List Nat))
    (m : List (Nat × Nat)) : ∀ (ss : List (List SysObj)) (c i : Nat),
    ∀ s ∈ (buildStages rd wd m ss c).stage_systems.getD i [],
      c ≤ s ∧ s < c + (ss.map List.length).sum := by
  intro ss
  induction ss with
  | nil =>
    intro c i s hs
    simp [buildStages] at hs
  | cons stage rest ih =>
    intro c i s hs
    cases i with
    | zero =>
      simp only [List.sum_cons, List.map_cons]
      obtain ⟨j, hj, rfl⟩ := List.mem_map.mp hs
      have := List.mem_range.mp hj
      omega
    | succ i =>
      have hrec := ih (c + stage.length) i s hs
      simp only [List.sum_cons, List.map_cons]
      omega

theorem toFinset_flatten_map (g : Nat → List Nat) (ids : List Nat) :
    ((ids.map g).flatten).toFinset
      = ids.foldr (fun s acc => (g s).toFinset ∪ acc) ∅ := by
  induction ids with
  | nil => simp
  | cons a t ih =>
    simp only [List.map_cons, List.flatten_cons, List.toFinset_append,
      List.foldr_cons, ih]

theorem foldr_union_congr (f g : Nat → List Nat) : ∀ l : List Nat,
    (∀ s ∈ l, f s = g s) →
    l.foldr (fun s acc => (f s).toFinset ∪ acc) ∅
      = l.foldr (fun s acc => (g s).toFinset ∪ acc) ∅ := by
  intro l
  induction l with
  | nil => intro _; rfl
  | cons a t ih =>
    intro h
    simp only [List.foldr_cons]
    rw [h a (by simp), ih (fun s hs => h s (by simp [hs]))]

/-- C6: for every stage `i` constructed by `Scheduler::new`, the
stored stage read list equals, as a set of interned resource ids, the
union of the read sets of the systems in stage `i`, and the stage
write list likewise equals the union of their write sets.  (The
stored stage lists keep duplicates — `extend` then `collect` on a
`SmallVec` — so the equality is one of sets, exactly as the claim
states it.) -/
theorem stage_sets_are_unions (stages : List (List SysObj))
    (read_deps write_deps : List (List Nat)) (i : Nat) :
    ((Scheduler.new stages read_deps write_deps).stage_reads.getD
        i []).toFinset
      = ((Scheduler.new stages read_deps write_deps).stages.getD i []).foldr
          (fun s acc =>
            ((Scheduler.new stages read_deps write_deps).system_reads.getD
              s []).toFinset ∪ acc) ∅
    ∧ ((Scheduler.new stages read_deps write_deps).stage_writes.getD
        i []).toFinset
      = ((Scheduler.new stages read_deps write_deps).stages.getD i []).foldr
          (fun s acc =>
            ((Scheduler.new stages read_deps write_deps).system_writes.getD
              s []).toFinset ∪ acc) ∅ := by
  have e1 : (Scheduler.new stages read_deps write_deps).stage_reads
      = (buildStages read_deps write_deps
          (internHandles (read_deps.flatten ++ write_deps.flatten))
          stages 0).stage_reads := rfl
  have e2 : (Scheduler.new stages read_deps write_deps).stage_writes
      = (buildStages read_deps write_deps
          (internHandles (read_deps.flatten ++ write_deps.flatten))
          stages 0).stage_writes := rfl
  have e3 : (Scheduler.new stages read_deps write_deps).stages
      = (buildStages read_deps write_deps
          (internHandles (read_deps.flatten ++ write_deps.flatten))
          stages 0).stage_systems := rfl
  have e4 : (Scheduler.new stages read_deps write_deps).system_reads
      = (buildStages read_deps write_deps
          (internHandles (read_deps.flatten ++ write_deps.flatten))
          stages 0).system_reads := rfl
  have e5 : (Scheduler.new stages read_deps write_deps).system_writes
      = (buildStages read_deps write_deps
          (internHandles (read_deps.flatten ++ write_deps.flatten))
          stages 0).system_writes := rfl
  constructor
  · rw [e1, e3, e4, buildStages_stage_reads_getD, toFinset_flatten_map]
    refine foldr_union_congr _ _ _ ?_
    intro s hs
    have hb := buildStages_stage_systems_bound read_deps write_deps
      (internHandles (read_deps.flatten ++ write_deps.flatten))
      stages 0 i s hs
    rw [buildStages_system_reads, getD_map_range _ _ _ (by omega)]
    rw [Nat.zero_add]
  · rw [e2, e3, e5, buildStages_stage_writes_getD, toFinset_flatten_map]
    refine foldr_union_congr _ _ _ ?_
    intro s hs
    have hb := buildStages_stage_systems_bound read_deps write_deps
      (internHandles (read_deps.flatten ++ write_deps.flatten))
      stages 0 i s hs
    rw [buildStages_system_writes, getD_map_range _ _ _ (by omega)]
    rw [Nat.zero_add]

/-! The dispatch machinery of `Scheduler::execute`. -/

/-- `EnumExecutionStrategy`.  Modelled from the spec: the enum is
declared in the crate root, outside the covered sources; the spec
says only `Relaxed` is implemented and the other variants are
reserved with unspecified semantics, so they are represented here by
an abstract family `Reserved k`. -/
inductive EnumExecutionStrategy where
  | Relaxed
  | Reserved (k : Nat)
deriving DecidableEq

/-- `TaskMessage` from `src/scheduler/mod.rs`: a completion of a
oneshot system, a completion of a whole stage, or a request to run a
oneshot system (the temporary system object carries its declared
handle lists). -/
inductive TaskMessage where
  | SystemComplete (id : Nat)
  | StageComplete (id : Nat)
  | ScheduleOneshot (scheduling_system : Nat) (system : SysObj)
      (strategy : EnumExecutionStrategy)
deriving DecidableEq

/-- `reads_for_task`: a stage task reads its stage's list, a oneshot
task reads its system's list (`getD` models the vector index, in
bounds for every task the scheduler creates). -/
def reads_for_task (stage_reads system_reads : List (List Nat))
    (task : Task) : List Nat :=
  match task with
  | .stage id => stage_reads.getD id []
  | .oneshot id => system_reads.getD id []

/-- `writes_for_task`. -/
def writes_for_task (stage_writes system_writes : List (List Nat))
    (task : Task) : List Nat :=
  match task with
  | .stage id => stage_writes.getD id []
  | .oneshot id => system_writes.getD id []

/-- `create_temp_system`: allocate the next temporary id, intern the
oneshot system's declared read and write handles and push them (and
the system) onto the per-system tables.  The Rust `HashMap` index
operator aborts the process on a handle that was never interned;
that abort is the `none` result (no post-abort state is observable,
so the partially pushed tables of the aborting run are not
modelled). -/
def create_temp_system (system : SysObj) (st : Scheduler) :
    Option (Nat × Scheduler) :=
  match system.reads.mapM (fun res => st.resource_id_mappings.lookup res),
      system.writes.mapM (fun res => st.resource_id_mappings.lookup res) with
  | some rs, some ws =>
    some (st.temp_system_id_counter,
      { st with
        temp_system_id_counter := st.temp_system_id_counter + 1
        system_reads := st.system_reads ++ [rs]
        system_writes := st.system_writes ++ [ws]
        systems := st.systems ++ [system] })
  | _, _ => none

/-- `release_resources_for_system`: release the system's read and
write lists (shared body `release_resources`). -/
def release_resources_for_system (id : Nat) (st : Scheduler) : Scheduler :=
  let led := release_resources (st.system_reads.getD id [])
    (st.system_writes.getD id []) ⟨st.reads_held, st.writes_held⟩
  { st with reads_held := led.reads_held, writes_held := led.writes_held }

/-- `release_resources_for_stage`. -/
def release_resources_for_stage (id : Nat) (st : Scheduler) : Scheduler :=
  let led := release_resources (st.stage_reads.getD id [])
    (st.stage_writes.getD id []) ⟨st.reads_held, st.writes_held⟩
  { st with reads_held := led.reads_held, writes_held := led.writes_held }

/-- The body of `wait_for_completion`: handle one received message,
returning the number of newly completed systems together with the
updated scheduler (the caller subtracts the count from
`runnning_systems`).  `none` models the two aborts: the
`unimplemented` branch taken for every strategy other than `Relaxed`,
and the interner abort inside `create_temp_system`. -/
def wait_for_completion (st : Scheduler) (msg : TaskMessage) :
    Option (Nat × Scheduler) :=
  match msg with
  | .SystemComplete id => some (1, release_resources_for_system id st)
  | .StageComplete id =>
    some ((st.stages.getD id []).length, release_resources_for_stage id st)
  | .ScheduleOneshot _ system strategy =>
    match strategy with
    | .Relaxed =>
      match create_temp_system system st with
      | some (id, st1) =>
        some (0,
          { st1 with task_queue := st1.task_queue ++ [Task.oneshot id] })
      | none => none
    | .Reserved _ => none

/-- `reset_temp_systems`: truncate the three per-system tables back
to `original_system_count` and reset the temp id counter
(`resize_with` only ever shrinks here; during a dispatch the tables
are never shorter than the original count). -/
def reset_temp_systems (st : Scheduler) : Scheduler :=
  { st with
    system_reads := st.system_reads.take st.original_system_count
    system_writes := st.system_writes.take st.original_system_count
    systems := st.systems.take st.original_system_count
    temp_system_id_counter := st.original_system_count }

/-- The count returned by `dispatch_task`: a stage dispatches one
system per member, a oneshot dispatches one system. -/
def dispatch_count (st : Scheduler) (task : Task) : Nat :=
  match task with
  | .stage id => (st.stages.getD id []).length
  | .oneshot _ => 1

/-- A configuration of the dispatch loop: the scheduler plus the list
of dispatched-but-uncompleted tasks.  The in-flight list is ghost
state recording which completion messages can still arrive. -/
structure ExecState where
  sched : Scheduler
  inflight : List Task
deriving DecidableEq

/-- Which messages can arrive in a configuration: completions only
for in-flight tasks, oneshot requests only while a system is
running. -/
def msg_valid (es : ExecState) (msg : TaskMessage) : Prop :=
  match msg with
  | .SystemComplete id => Task.oneshot id ∈ es.inflight
  | .StageComplete id => Task.stage id ∈ es.inflight
  | .ScheduleOneshot _ _ _ => 0 < es.sched.runnning_systems

/-- Effect of a handled message on the in-flight list. -/
def inflight_after (infl : List Task) (msg : TaskMessage) : List Task :=
  match msg with
  | .SystemComplete id => infl.erase (Task.oneshot id)
  | .StageComplete id => infl.erase (Task.stage id)
  | .ScheduleOneshot _ _ _ => infl

/-- One step of the loop inside `Scheduler::execute`.  `run_ok`: the
popped head task acquires its resources and is dispatched.
`run_blocked`: the popped head fails to acquire, is pushed back onto
the front (so the handler sees the unchanged queue), and exactly one
message is received and handled.  `wait_drain`: the queue is empty
but systems are still running; one message is received and handled. -/
inductive ExecStep : ExecState → ExecState → Prop where
  | run_ok (es : ExecState) (t : Task) (rest : List Task) (led : Ledger) :
      es.sched.task_queue = t :: rest →
      try_obtain_resources
          (reads_for_task es.sched.stage_reads es.sched.system_reads t)
          (writes_for_task es.sched.stage_writes es.sched.system_writes t)
          ⟨es.sched.reads_held, es.sched.writes_held⟩ = (true, led) →
      ExecStep es
        ⟨{ es.sched with
            task_queue := rest
            reads_held := led.reads_held
            writes_held := led.writes_held
            runnning_systems :=
              es.sched.runnning_systems + dispatch_count es.sched t },
          t :: es.inflight⟩
  | run_blocked (es : ExecState) (t : Task) (rest : List Task)
      (msg : TaskMessage) (n : Nat) (st1 : Scheduler) :
      es.sched.task_queue = t :: rest →
      (try_obtain_resources
          (reads_for_task es.sched.stage_reads es.sched.system_reads t)
          (writes_for_task es.sched.stage_writes es.sched.system_writes t)
          ⟨es.sched.reads_held, es.sched.writes_held⟩).1 = false →
      msg_valid es msg →
      wait_for_completion es.sched msg = some (n, st1) →
      ExecStep es
        ⟨{ st1 with runnning_systems := st1.runnning_systems - n },
          inflight_after es.inflight msg⟩
  | wait_drain (es : ExecState) (msg : TaskMessage) (n : Nat)
      (st1 : Scheduler) :
      es.sched.task_queue = [] →
      0 < es.sched.runnning_systems →
      msg_valid es msg →
      wait_for_completion es.sched msg = some (n, st1) →
      ExecStep es
        ⟨{ st1 with runnning_systems := st1.runnning_systems - n },
          inflight_after es.inflight msg⟩

/-- Start of `execute`: the task queue is reset to the starting
queue; nothing is running yet and nothing is in flight. -/
def exec_init (st : Scheduler) : ExecState :=
  ⟨{ st with task_queue := st.starting_queue }, []⟩

/-! Lemmas about interning a oneshot system's handle lists. -/

theorem mapM_eq_none_of_mem (f : Nat → Option Nat) :
    ∀ l : List Nat, (∃ a ∈ l, f a = none) → l.mapM f = none := by
  intro l
  induction l with
  | nil => rintro ⟨a, ha, -⟩; simp at ha
  | cons a t ih =>
    rintro ⟨b, hb, hfb⟩
    rw [List.mapM_cons]
    rcases List.mem_cons.mp hb with rfl | hbt
    · rw [hfb]
      rfl
    · cases hfa : f a with
      | none => rfl
      | some v =>
        rw [ih ⟨b, hbt, hfb⟩]
        rfl

theorem mapM_some_mem (f : Nat → Option Nat) :
    ∀ (l out : List Nat), l.mapM f = some out →
      ∀ b ∈ out, ∃ a ∈ l, f a = some b := by
  intro l
  induction l with
  | nil =>
    intro out h b hb
    rw [List.mapM_nil] at h
    injection h with h
    subst h
    simp at hb
  | cons a t ih =>
    intro out h b hb
    rw [List.mapM_cons] at h
    cases hfa : f a with
    | none => rw [hfa] at h; exact absurd h (by simp)
    | some v =>
      rw [hfa] at h
      cases hmt : t.mapM f with
      | none => rw [hmt] at h; exact absurd h (by simp)
      | some vs =>
        rw [hmt] at h
        have hout : v :: vs = out := by
          simpa using h
        subst hout
        rcases List.mem_cons.mp hb with rfl | hbs
        · exact ⟨a, by simp, hfa⟩
        · obtain ⟨x, hx, hfx⟩ := ih vs hmt b hbs
          exact ⟨x, by simp [hx], hfx⟩

/-- C9: if a oneshot system handed to `create_temp_system` declares a
handle absent from `resource_id_mappings`, the operation aborts (the
`HashMap` index panic, modelled as `none`) instead of installing the
temporary system with a wrong resource set. -/
theorem create_temp_system_unknown_handle (system : SysObj) (st : Scheduler)
    (h : (∃ r ∈ system.reads, st.resource_id_mappings.lookup r = none)
      ∨ ∃ w ∈ system.writes, st.resource_id_mappings.lookup w = none) :
    create_temp_system system st = none := by
  unfold create_temp_system
  rcases h with h | h
  · rw [mapM_eq_none_of_mem _ _ h]
  · cases hr : system.reads.mapM
        (fun res => st.resource_id_mappings.lookup res) with
    | none => rfl
    | some rs =>
      rw [mapM_eq_none_of_mem _ _ h]

/-- Witness for C9: a oneshot declaring handle `5` against a scheduler
whose interner is empty aborts. -/
theorem create_temp_system_unknown_handle_witness :
    create_temp_system ⟨[5], []⟩ (Scheduler.new [] [] []) = none :=
  create_temp_system_unknown_handle ⟨[5], []⟩ (Scheduler.new [] [] [])
    (Or.inl ⟨5, by decide, by decide⟩)

/-- C8: handling a `ScheduleOneshot` message with the `Relaxed`
strategy creates a temporary system and appends a `Oneshot` task for
it to the back of the task queue, reporting zero completed systems;
for every strategy other than `Relaxed` the handler hits the
`unimplemented` branch (modelled as `none`) instead of running or
silently dropping the system. -/
theorem schedule_oneshot_strategy (st : Scheduler) (sid : Nat)
    (system : SysObj) (strategy : EnumExecutionStrategy) :
    (∀ id st1, create_temp_system system st = some (id, st1) →
      wait_for_completion st
          (.ScheduleOneshot sid system .Relaxed)
        = some (0,
            { st1 with task_queue := st1.task_queue ++ [Task.oneshot id] }))
    ∧ (strategy ≠ .Relaxed →
      wait_for_completion st (.ScheduleOneshot sid system strategy)
        = none) := by
  constructor
  · intro id st1 hc
    have hw : wait_for_completion st (.ScheduleOneshot sid system .Relaxed)
        = match create_temp_system system st with
          | some (id, st1) =>
            some (0,
              { st1 with task_queue := st1.task_queue ++ [Task.oneshot id] })
          | none => none := rfl
    rw [hw, hc]
  · intro hs
    cases strategy with
    | Relaxed => exact absurd rfl hs
    | Reserved k => rfl

/-- Witness for C8: a oneshot with no declared handles is appended as
`Task.oneshot 0` on a fresh empty scheduler, and the `Reserved 0`
strategy aborts. -/
theorem schedule_oneshot_strategy_witness :
    wait_for_completion (Scheduler.new [] [] [])
        (.ScheduleOneshot 0 ⟨[], []⟩ .Relaxed)
      = some (0,
          { (create_temp_system ⟨[], []⟩ (Scheduler.new [] [] [])).get
              (by decide) |>.2 with
            task_queue :=
              ((create_temp_system ⟨[], []⟩
                (Scheduler.new [] [] [])).get (by decide)).2.task_queue
              ++ [Task.oneshot 0] })
    ∧ wait_for_completion (Scheduler.new [] [] [])
        (.ScheduleOneshot 0 ⟨[], []⟩ (.Reserved 0)) = none := by
  constructor
  · exact (schedule_oneshot_strategy (Scheduler.new [] [] []) 0 ⟨[], []⟩
      (.Reserved 0)).1 0 _ (by decide)
  · exact (schedule_oneshot_strategy (Scheduler.new [] [] []) 0 ⟨[], []⟩
      (.Reserved 0)).2 (by decide)

/-! Small specifications of `create_temp_system` and
`wait_for_completion`, used for the queue-ordering and postcondition
claims. -/

theorem create_temp_system_spec (system : SysObj) (st : Scheduler)
    (id : Nat) (st1 : Scheduler)
    (h : create_temp_system system st = some (id, st1)) :
    id = st.temp_system_id_counter
    ∧ st1.task_queue = st.task_queue
    ∧ st1.starting_queue = st.starting_queue
    ∧ st1.temp_system_id_counter = st.temp_system_id_counter + 1
    ∧ st1.runnning_systems = st.runnning_systems
    ∧ st1.reads_held = st.reads_held
    ∧ st1.writes_held = st.writes_held
    ∧ st1.stages = st.stages
    ∧ st1.stage_reads = st.stage_reads
    ∧ st1.stage_writes = st.stage_writes
    ∧ st1.resource_id_mappings = st.resource_id_mappings
    ∧ st1.original_system_count = st.original_system_count
    ∧ st1.systems = st.systems ++ [system]
    ∧ ∃ rs ws,
        system.reads.mapM (fun res => st.resource_id_mappings.lookup res)
          = some rs
        ∧ system.writes.mapM (fun res => st.resource_id_mappings.lookup res)
          = some ws
        ∧ st1.system_reads = st.system_reads ++ [rs]
        ∧ st1.system_writes = st.system_writes ++ [ws] := by
  unfold create_temp_system at h
  split at h
  next rs ws hrs hws =>
    injection h with h1
    injection h1 with hid hst
    subst hid
    subst hst
    refine ⟨rfl, rfl, rfl, rfl, rfl, rfl, rfl, rfl, rfl, rfl, rfl, rfl, rfl,
      rs, ws, hrs, hws, rfl, rfl⟩
  next => exact absurd h (by simp)

theorem wait_for_completion_queue (st : Scheduler) (msg : TaskMessage)
    (n : Nat) (st1 : Scheduler)
    (h : wait_for_completion st msg = some (n, st1)) :
    st1.task_queue = st.task_queue
    ∨ st1.task_queue
        = st.task_queue ++ [Task.oneshot st.temp_system_id_counter] := by
  cases msg with
  | SystemComplete id =>
    left
    injection h with h1
    injection h1 with hn hst
    rw [← hst]
    rfl
  | StageComplete id =>
    left
    injection h with h1
    injection h1 with hn hst
    rw [← hst]
    rfl
  | ScheduleOneshot sid sys strat =>
    cases strat with
    | Reserved k => exact absurd h (by simp [wait_for_completion])
    | Relaxed =>
      have he : wait_for_completion st (.ScheduleOneshot sid sys .Relaxed)
          = match create_temp_system sys st with
            | some (id, st2) =>
              some (0,
                { st2 with
                  task_queue := st2.task_queue ++ [Task.oneshot id] })
            | none => none := rfl
      rw [he] at h
      cases hc : create_temp_system sys st with
      | none =>
        rw [hc] at h
        cases h
      | some p =>
        obtain ⟨id, st2⟩ := p
        rw [hc] at h
        injection h with h1
        injection h1 with hn hst
        obtain ⟨hid, hq2, -⟩ := create_temp_system_spec sys st id st2 hc
        right
        rw [← hst]
        show st2.task_queue ++ [Task.oneshot id] = _
        rw [hq2, hid]

/-- C7: whenever the popped head task fails to acquire its resources,
the step puts that exact task back at the front of the queue — the
queue after the step still starts with `t :: rest` (anything added
while handling the one received message is appended at the back); and
handling a `ScheduleOneshot` message always appends the new oneshot
task at the back of the queue, reporting zero completed systems.
Hence a blocked task is retried before any newly arriving oneshot,
and oneshots are enqueued in arrival (FIFO) order. -/
theorem requeue_semantics :
    (∀ (es esn : ExecState) (t : Task) (rest : List Task),
      es.sched.task_queue = t :: rest →
      (try_obtain_resources
          (reads_for_task es.sched.stage_reads es.sched.system_reads t)
          (writes_for_task es.sched.stage_writes es.sched.system_writes t)
          ⟨es.sched.reads_held, es.sched.writes_held⟩).1 = false →
      ExecStep es esn →
      (t :: rest) <+: esn.sched.task_queue)
    ∧ ∀ (st : Scheduler) (sid : Nat) (sys : SysObj) (n : Nat)
        (st1 : Scheduler),
      wait_for_completion st (.ScheduleOneshot sid sys .Relaxed)
          = some (n, st1) →
      n = 0 ∧ st1.task_queue
          = st.task_queue
            ++ [Task.oneshot st.temp_system_id_counter] := by
  constructor
  · intro es esn t rest hq hfail hstep
    cases hstep with
    | run_ok t' rest' led hq' hsucc =>
      rw [hq] at hq'
      injection hq' with ht hrest
      subst ht
      have := congrArg Prod.fst hsucc
      rw [hfail] at this
      cases this
    | run_blocked t' rest' msg n st1 hq' hfail' hv hw =>
      show (t :: rest) <+: st1.task_queue
      rcases wait_for_completion_queue _ _ _ _ hw with hqe | hqe
      · rw [hqe, hq]
      · rw [hqe, hq]
        exact List.prefix_append _ _
    | wait_drain msg n st1 hq0 hr hv hw =>
      rw [hq] at hq0
      cases hq0
  · intro st sid sys n st1 h
    have he : wait_for_completion st (.ScheduleOneshot sid sys .Relaxed)
        = match create_temp_system sys st with
          | some (id, st2) =>
            some (0,
              { st2 with task_queue := st2.task_queue ++ [Task.oneshot id] })
          | none => none := rfl
    rw [he] at h
    cases hc : create_temp_system sys st with
    | none =>
      rw [hc] at h
      cases h
    | some p =>
      obtain ⟨id, st2⟩ := p
      rw [hc] at h
      injection h with h1
      injection h1 with hn hst
      obtain ⟨hid, hq2, -⟩ := create_temp_system_spec sys st id st2 hc
      refine ⟨hn.symm, ?_⟩
      rw [← hst]
      show st2.task_queue ++ [Task.oneshot id] = _
      rw [hq2, hid]

/-- A concrete blocked scenario used by the C7 witness: two one-system
stages both writing resource `0`; stage `0` is in flight holding the
write, stage `1` is at the head of the queue and cannot acquire. -/
def c7sched : Scheduler :=
  { task_queue := [Task.stage 1]
    starting_queue := [Task.stage 0, Task.stage 1]
    runnning_systems := 1
    writes_held := {0}
    reads_held := [0]
    resource_id_mappings := [(0, 0)]
    systems := [⟨[], [0]⟩, ⟨[], [0]⟩]
    stages := [[0], [1]]
    system_reads := [[], []]
    system_writes := [[0], [0]]
    stage_reads := [[], []]
    stage_writes := [[0], [0]]
    original_system_count := 2
    temp_system_id_counter := 2 }

def c7es : ExecState := ⟨c7sched, [Task.stage 0]⟩

def c7esn : ExecState :=
  ⟨{ release_resources_for_stage 0 c7sched with
      runnning_systems :=
        (release_resources_for_stage 0 c7sched).runnning_systems - 1 },
    inflight_after [Task.stage 0] (TaskMessage.StageComplete 0)⟩

/-- Witness for C7: in the blocked scenario the step (which handles
`StageComplete 0`) leaves `Stage 1` at the front of the queue, and a
`Relaxed` oneshot on a fresh scheduler is appended at the back with
zero completions reported. -/
theorem requeue_semantics_witness :
    ([Task.stage 1] <+: c7esn.sched.task_queue)
    ∧ (0 = 0
      ∧ ((wait_for_completion (Scheduler.new [] [] [])
            (.ScheduleOneshot 0 ⟨[], []⟩ .Relaxed)).get
          (by decide)).2.task_queue
        = (Scheduler.new [] [] []).task_queue
          ++ [Task.oneshot (Scheduler.new [] [] []).temp_system_id_counter]) := by
  constructor
  · exact requeue_semantics.1 c7es c7esn (Task.stage 1) [] rfl (by decide)
      (ExecStep.run_blocked c7es (Task.stage 1) [] (.StageComplete 0) 1
        (release_resources_for_stage 0 c7sched) rfl (by decide)
        (by exact List.mem_cons_self _ _) (by decide))
  · exact requeue_semantics.2 (Scheduler.new [] [] []) 0 ⟨[], []⟩ 0 _
      (by decide)

/-! The acquire/release step relation of the dispatch loop at ledger
level (claim C2). -/

/-- Ledger-level view of an executing dispatch: the ledger plus the
list of (reads, writes) pairs successfully acquired and not yet
released.  Every dispatched task runs `try_obtain_resources` with its
lists; every completion releases the same lists. -/
structure LockState where
  reads_held : List Nat
  writes_held : Finset Nat
  inflight : List (List Nat × List Nat)
deriving DecidableEq

/-- Reader-hold count of resource `r` over the in-flight tasks,
counting every occurrence in every read list (matching the increments
`try_obtain_resources` performs). -/
def readCount (infl : List (List Nat × List Nat)) (r : Nat) : Nat :=
  (infl.map (fun p => p.1.count r)).sum

/-- Number of in-flight tasks whose write list contains `w`. -/
def writerCount (infl : List (List Nat × List Nat)) (w : Nat) : Nat :=
  infl.countP (fun p => decide (w ∈ p.2))

/-- The scheduler's acquire/release step relation: an acquire is a
successful `try_obtain_resources` with some task's (in-bounds) read
and write lists, a release picks an in-flight task and releases its
lists exactly as `release_resources_for_system` /
`release_resources_for_stage` do. -/
inductive LockStep : LockState → LockState → Prop where
  | acquire (s : LockState) (R W : List Nat) (led : Ledger) :
      (∀ r ∈ R ++ W, r < s.reads_held.length) →
      try_obtain_resources R W ⟨s.reads_held, s.writes_held⟩ = (true, led) →
      LockStep s ⟨led.reads_held, led.writes_held, (R, W) :: s.inflight⟩
  | release (s : LockState) (R W : List Nat) :
      (R, W) ∈ s.inflight →
      LockStep s
        ⟨decReads R s.reads_held, eraseWrites W s.writes_held,
          s.inflight.erase (R, W)⟩

/-- `LockStep` with the side conditions of the amended claim C2: every
acquired task has disjoint read and write lists, and no acquire
raises any resource's simultaneous read-hold count above the `u8`
capacity 255. -/
inductive GoodLockStep : LockState → LockState → Prop where
  | acquire (s : LockState) (R W : List Nat) (led : Ledger) :
      (∀ r ∈ R ++ W, r < s.reads_held.length) →
      (∀ r ∈ R, r ∉ W) →
      (∀ r : Nat, readCount ((R, W) :: s.inflight) r ≤ 255) →
      try_obtain_resources R W ⟨s.reads_held, s.writes_held⟩ = (true, led) →
      GoodLockStep s ⟨led.reads_held, led.writes_held, (R, W) :: s.inflight⟩
  | release (s : LockState) (R W : List Nat) :
      (R, W) ∈ s.inflight →
      GoodLockStep s
        ⟨decReads R s.reads_held, eraseWrites W s.writes_held,
          s.inflight.erase (R, W)⟩

/-- The ledger at the start of a dispatch: `n` interned resources, no
holds, nothing in flight. -/
def zeroLock (n : Nat) : LockState := ⟨List.replicate n 0, ∅, []⟩

theorem getD_replicate_zero (n r : Nat) :
    (List.replicate n 0).getD r 0 = 0 := by
  by_cases h : r < n
  · rw [List.getD_eq_getElem?_getD]
    rw [List.getElem?_replicate]
    simp [h]
  · exact getD_oob _ _ (by simp; omega)

/-- Inductive invariant for the guarded acquire/release relation. -/
structure LockInv (s : LockState) : Prop where
  entries : ∀ x ∈ s.reads_held, x < 256
  bounds : ∀ p ∈ s.inflight, ∀ r ∈ p.1 ++ p.2, r < s.reads_held.length
  disj : ∀ p ∈ s.inflight, ∀ r ∈ p.1, r ∉ p.2
  reads_acct : ∀ r : Nat, s.reads_held.getD r 0 = readCount s.inflight r
  reads_le : ∀ r : Nat, readCount s.inflight r ≤ 255
  writes_iff : ∀ w : Nat, w ∈ s.writes_held ↔ 0 < writerCount s.inflight w
  writers_le : ∀ w : Nat, writerCount s.inflight w ≤ 1
  held_no_readers : ∀ w ∈ s.writes_held, readCount s.inflight w = 0

theorem lockInv_zero (n : Nat) : LockInv (zeroLock n) := by
  refine ⟨?_, ?_, ?_, ?_, ?_, ?_, ?_, ?_⟩
  · intro x hx
    have := List.eq_of_mem_replicate hx
    omega
  · intro p hp
    simp [zeroLock] at hp
  · intro p hp
    simp [zeroLock] at hp
  · intro r
    rw [show (zeroLock n).reads_held = List.replicate n 0 from rfl,
      getD_replicate_zero]
    rfl
  · intro r
    show (0 : Nat) ≤ 255
    omega
  · intro w
    simp [zeroLock, writerCount]
  · intro w
    show (0 : Nat) ≤ 1
    omega
  · intro w hw
    simp [zeroLock] at hw

theorem readCount_cons (R W : List Nat)
    (infl : List (List Nat × List Nat)) (r : Nat) :
    readCount ((R, W) :: infl) r = R.count r + readCount infl r := by
  simp [readCount]

theorem writerCount_cons (R W : List Nat)
    (infl : List (List Nat × List Nat)) (w : Nat) :
    writerCount ((R, W) :: infl) w
      = writerCount infl w + (if w ∈ W then 1 else 0) := by
  by_cases hw : w ∈ W
  · simp [writerCount, List.countP_cons, hw]
  · simp [writerCount, List.countP_cons, hw]

theorem readCount_erase (infl : List (List Nat × List Nat))
    (R W : List Nat) (hm : (R, W) ∈ infl) (r : Nat) :
    readCount infl r = R.count r + readCount (infl.erase (R, W)) r := by
  induction infl with
  | nil => simp at hm
  | cons p t ih =>
    by_cases hp : p = (R, W)
    · subst hp
      rw [List.erase_cons_head, readCount_cons]
    · have hm2 : (R, W) ∈ t := by
        rcases List.mem_cons.mp hm with h | h
        · exact absurd h.symm hp
        · exact h
      rw [List.erase_cons_tail (by simp [hp])]
      obtain ⟨P, Q⟩ := p
      rw [readCount_cons, readCount_cons, ih hm2]
      omega

theorem writerCount_erase (infl : List (List Nat × List Nat))
    (R W : List Nat) (hm : (R, W) ∈ infl) (w : Nat) :
    writerCount infl w
      = writerCount (infl.erase (R, W)) w + (if w ∈ W then 1 else 0) := by
  induction infl with
  | nil => simp at hm
  | cons p t ih =>
    by_cases hp : p = (R, W)
    · subst hp
      rw [List.erase_cons_head, writerCount_cons]
    · have hm2 : (R, W) ∈ t := by
        rcases List.mem_cons.mp hm with h | h
        · exact absurd h.symm hp
        · exact h
      rw [List.erase_cons_tail (by simp [hp])]
      obtain ⟨P, Q⟩ := p
      rw [writerCount_cons, writerCount_cons, ih hm2]
      omega

theorem lockInv_step (s s1 : LockState) (hstep : GoodLockStep s s1)
    (hi : LockInv s) : LockInv s1 := by
  cases hstep with
  | acquire R W led hb hd h255 hto =>
    have h1 : (try_obtain_resources R W ⟨s.reads_held, s.writes_held⟩).1
        = true := by rw [hto]
    obtain ⟨heq, hnw, hzero⟩ := try_obtain_success R W _ h1
    have hled : led
        = ⟨incReads R s.reads_held, setWrites W s.writes_held⟩ := by
      have h2 := congrArg Prod.snd hto
      rw [heq] at h2
      exact h2.symm
    subst hled
    refine ⟨?_, ?_, ?_, ?_, ?_, ?_, ?_, ?_⟩
    · exact incReads_entries _ _ hi.entries
    · intro p hp r hr
      show r < (incReads R s.reads_held).length
      rw [incReads_length]
      rcases List.mem_cons.mp hp with rfl | hp'
      · exact hb r hr
      · exact hi.bounds p hp' r hr
    · intro p hp
      rcases List.mem_cons.mp hp with rfl | hp'
      · exact hd
      · exact hi.disj p hp'
    · intro r
      show (incReads R s.reads_held).getD r 0
          = readCount ((R, W) :: s.inflight) r
      rw [incReads_getD _ _ _
          (fun x hx => hb x (List.mem_append_left _ hx)) hi.entries,
        readCount_cons, hi.reads_acct r]
      have hle := h255 r
      rw [readCount_cons] at hle
      omega
    · exact h255
    · intro w
      show w ∈ setWrites W s.writes_held
          ↔ 0 < writerCount ((R, W) :: s.inflight) w
      rw [setWrites_eq, Finset.mem_union, List.mem_toFinset,
        hi.writes_iff w, writerCount_cons]
      by_cases hw : w ∈ W
      · simp [hw]
      · simp [hw]
    · intro w
      show writerCount ((R, W) :: s.inflight) w ≤ 1
      rw [writerCount_cons]
      by_cases hw : w ∈ W
      · have hnw' : w ∉ s.writes_held := hnw w (List.mem_append_right _ hw)
        have h0 : writerCount s.inflight w = 0 := by
          rcases Nat.eq_zero_or_pos (writerCount s.inflight w) with h0 | hpos
          · exact h0
          · exact absurd ((hi.writes_iff w).mpr hpos) hnw'
        rw [h0]
        simp [hw]
      · have := hi.writers_le w
        simp [hw]
        omega
    · intro w hw
      show readCount ((R, W) :: s.inflight) w = 0
      rw [readCount_cons]
      have hwm : w ∈ s.writes_held ∨ w ∈ W := by
        have hw2 : w ∈ setWrites W s.writes_held := hw
        rw [setWrites_eq, Finset.mem_union, List.mem_toFinset] at hw2
        exact hw2
      rcases hwm with hww | hwW
      · have h0 : readCount s.inflight w = 0 := hi.held_no_readers w hww
        have hcnt : List.count w R = 0 := by
          rw [List.count_eq_zero]
          intro hwR
          exact hnw w (List.mem_append_left _ hwR) hww
        omega
      · have h0 : readCount s.inflight w = 0 := by
          have hz := hzero w hwW
          rw [hi.reads_acct w] at hz
          exact hz
        have hcnt : List.count w R = 0 := by
          rw [List.count_eq_zero]
          intro hwR
          exact hd w hwR hwW
        omega
  | release R W hmem =>
    refine ⟨?_, ?_, ?_, ?_, ?_, ?_, ?_, ?_⟩
    · exact decReads_entries _ _ hi.entries
    · intro p hp r hr
      show r < (decReads R s.reads_held).length
      rw [decReads_length]
      exact hi.bounds p (List.mem_of_mem_erase hp) r hr
    · intro p hp
      exact hi.disj p (List.mem_of_mem_erase hp)
    · intro r
      show (decReads R s.reads_held).getD r 0
          = readCount (s.inflight.erase (R, W)) r
      have hbR : ∀ x ∈ R, x < s.reads_held.length := fun x hx =>
        hi.bounds (R, W) hmem x (List.mem_append_left _ hx)
      rw [decReads_getD _ _ _ hbR hi.entries, hi.reads_acct r,
        readCount_erase s.inflight R W hmem r]
      have hle := hi.reads_le r
      rw [readCount_erase s.inflight R W hmem r] at hle
      omega
    · intro r
      show readCount (s.inflight.erase (R, W)) r ≤ 255
      have hle := hi.reads_le r
      rw [readCount_erase s.inflight R W hmem r] at hle
      omega
    · intro w
      show w ∈ eraseWrites W s.writes_held
          ↔ 0 < writerCount (s.inflight.erase (R, W)) w
      rw [eraseWrites_eq, Finset.mem_sdiff, List.mem_toFinset,
        hi.writes_iff w, writerCount_erase s.inflight R W hmem w]
      have hle := hi.writers_le w
      rw [writerCount_erase s.inflight R W hmem w] at hle
      by_cases hw : w ∈ W
      · rw [if_pos hw] at hle ⊢
        constructor
        · rintro ⟨-, hq⟩
          exact absurd hw hq
        · intro hpos
          exact absurd hpos (by omega)
      · rw [if_neg hw] at hle ⊢
        simp [hw]
    · intro w
      show writerCount (s.inflight.erase (R, W)) w ≤ 1
      have hle := hi.writers_le w
      rw [writerCount_erase s.inflight R W hmem w] at hle
      omega
    · intro w hw
      show readCount (s.inflight.erase (R, W)) w = 0
      have hw2 : w ∈ eraseWrites W s.writes_held := hw
      rw [eraseWrites_eq, Finset.mem_sdiff, List.mem_toFinset] at hw2
      have h0 := hi.held_no_readers w hw2.1
      rw [readCount_erase s.inflight R W hmem w] at h0
      omega

/-- C2 (amended): along any execution of the acquire/release step
relation in which every acquired task has disjoint read and write
lists and no resource ever carries more than 255 simultaneous read
holds (the `u8` capacity), every reachable state satisfies: whenever
`writes_held[r]` is set, `reads_held[r] = 0`, and at most one
in-flight task holds the write on any resource. -/
theorem write_implies_no_readers_invariant (n : Nat) (s : LockState)
    (h : Relation.ReflTransGen GoodLockStep (zeroLock n) s) :
    (∀ r ∈ s.writes_held, s.reads_held.getD r 0 = 0)
    ∧ ∀ w : Nat, writerCount s.inflight w ≤ 1 := by
  have hinv : LockInv s := by
    induction h with
    | refl => exact lockInv_zero n
    | tail _ hstep ih => exact lockInv_step _ _ hstep ih
  refine ⟨?_, hinv.writers_le⟩
  intro r hr
  rw [hinv.reads_acct r]
  exact hinv.held_no_readers r hr

/-- Witness for the amended C2: after one guarded acquire of
`W = [0]` from the one-resource zero ledger, the invariant holds. -/
theorem write_implies_no_readers_invariant_witness :
    (⟨[0], {0}, [([], [0])]⟩ : LockState).reads_held.getD 0 0 = 0
    ∧ writerCount (⟨[0], {0}, [([], [0])]⟩ : LockState).inflight 0 ≤ 1 := by
  have hstep : GoodLockStep (zeroLock 1)
      ⟨[0], {0}, [([], [0])]⟩ :=
    GoodLockStep.acquire (zeroLock 1) [] [0] ⟨[0], {0}⟩ (by decide)
      (by simp) (by intro r; simp [readCount, zeroLock]) (by decide)
  have h := write_implies_no_readers_invariant 1 ⟨[0], {0}, [([], [0])]⟩
    (Relation.ReflTransGen.single hstep)
  exact ⟨h.1 0 (by decide), h.2 0⟩

/-- Counterexample to C2 as stated: a single task whose read and
write lists share resource `0` (e.g. a stage containing one system
that both reads and writes the same resource) acquires successfully:
the reachable state has `writes_held[0]` set while
`reads_held[0] = 1`, violating the claimed unguarded invariant. -/
theorem write_implies_no_readers_counterexample :
    Relation.ReflTransGen LockStep (zeroLock 1)
        ⟨[1], {0}, [([0], [0])]⟩
    ∧ (0 : Nat) ∈ (⟨[1], {0}, [([0], [0])]⟩ : LockState).writes_held
    ∧ (⟨[1], {0}, [([0], [0])]⟩ : LockState).reads_held.getD 0 0 = 1 := by
  refine ⟨?_, by decide, by decide⟩
  refine Relation.ReflTransGen.single ?_
  exact LockStep.acquire (zeroLock 1) [0] [0] ⟨[1], {0}⟩ (by decide)
    (by decide)

/-! Invariant machinery for a whole `execute` dispatch (claim C4). -/

/-- The read list of a task under a scheduler's current tables. -/
def task_reads (st : Scheduler) (t : Task) : List Nat :=
  reads_for_task st.stage_reads st.system_reads t

/-- The write list of a task under a scheduler's current tables. -/
def task_writes (st : Scheduler) (t : Task) : List Nat :=
  writes_for_task st.stage_writes st.system_writes t

/-- Reader-hold count of resource `r` over the in-flight tasks. -/
def inflReadCount (es : ExecState) (r : Nat) : Nat :=
  (es.inflight.map (fun t => (task_reads es.sched t).count r)).sum

/-- Number of in-flight tasks whose write list contains `w`. -/
def inflWriters (es : ExecState) (w : Nat) : Nat :=
  es.inflight.countP (fun t => decide (w ∈ task_writes es.sched t))

theorem table_getD_oob (tbl : List (List Nat)) (id : Nat)
    (h : tbl.length ≤ id) : tbl.getD id [] = [] := by
  rw [List.getD_eq_getElem?_getD, List.getElem?_eq_none h]
  rfl

theorem getD_mem_of_lt (tbl : List (List Nat)) (id : Nat)
    (h : id < tbl.length) : tbl.getD id [] ∈ tbl := by
  rw [List.getD_eq_getElem?_getD, List.getElem?_eq_getElem h]
  exact List.getElem_mem h

theorem getD_bound_of_table (tbl : List (List Nat)) (bound : Nat)
    (h : ∀ l ∈ tbl, ∀ x ∈ l, x < bound) (id : Nat) :
    ∀ x ∈ tbl.getD id [], x < bound := by
  by_cases hid : id < tbl.length
  · exact h _ (getD_mem_of_lt tbl id hid)
  · rw [table_getD_oob tbl id (by omega)]
    intro x hx
    simp at hx

theorem getD_append_lt (tbl tbl2 : List (List Nat)) (id : Nat)
    (h : id < tbl.length) :
    (tbl ++ tbl2).getD id [] = tbl.getD id [] :=
  List.getD_append tbl tbl2 [] id h

theorem sum_map_erase_task (f : Task → Nat) :
    ∀ (l : List Task) (a : Task), a ∈ l →
      (l.map f).sum = f a + ((l.erase a).map f).sum := by
  intro l
  induction l with
  | nil => intro a ha; simp at ha
  | cons p t ih =>
    intro a ha
    by_cases hp : p = a
    · subst hp
      rw [List.erase_cons_head, List.map_cons, List.sum_cons]
    · have ha2 : a ∈ t := by
        rcases List.mem_cons.mp ha with h | h
        · exact absurd h.symm hp
        · exact h
      rw [List.erase_cons_tail (by simp [hp]), List.map_cons, List.map_cons,
        List.sum_cons, List.sum_cons, ih a ha2]
      omega

theorem countP_erase_task (p : Task → Bool) :
    ∀ (l : List Task) (a : Task), a ∈ l →
      l.countP p = (l.erase a).countP p + (if p a = true then 1 else 0) := by
  intro l
  induction l with
  | nil => intro a ha; simp at ha
  | cons q t ih =>
    intro a ha
    by_cases hq : q = a
    · subst hq
      rw [List.erase_cons_head, List.countP_cons]
    · have ha2 : a ∈ t := by
        rcases List.mem_cons.mp ha with h | h
        · exact absurd h.symm hq
        · exact h
      rw [List.erase_cons_tail (by simp [hq]), List.countP_cons,
        List.countP_cons, ih a ha2]
      omega

theorem countP_congr_task (p q : Task → Bool) :
    ∀ l : List Task, (∀ a ∈ l, p a = q a) →
      l.countP p = l.countP q := by
  intro l
  induction l with
  | nil => intro _; rfl
  | cons a t ih =>
    intro h
    rw [List.countP_cons, List.countP_cons, h a (by simp),
      ih (fun x hx => h x (by simp [hx]))]

/-- Inductive invariant maintained by every step of `execute`. -/
structure ExecInv (es : ExecState) : Prop where
  entries : ∀ x ∈ es.sched.reads_held, x < 256
  sys_reads_bound : ∀ l ∈ es.sched.system_reads,
    ∀ x ∈ l, x < es.sched.reads_held.length
  sys_writes_bound : ∀ l ∈ es.sched.system_writes,
    ∀ x ∈ l, x < es.sched.reads_held.length
  stage_reads_bound : ∀ l ∈ es.sched.stage_reads,
    ∀ x ∈ l, x < es.sched.reads_held.length
  stage_writes_bound : ∀ l ∈ es.sched.stage_writes,
    ∀ x ∈ l, x < es.sched.reads_held.length
  map_bound : ∀ p ∈ es.sched.resource_id_mappings,
    p.2 < es.sched.reads_held.length
  len_sys_reads :
    es.sched.system_reads.length = es.sched.temp_system_id_counter
  len_sys_writes :
    es.sched.system_writes.length = es.sched.temp_system_id_counter
  len_systems : es.sched.systems.length = es.sched.temp_system_id_counter
  orig_le :
    es.sched.original_system_count ≤ es.sched.temp_system_id_counter
  queue_oneshot : ∀ id : Nat, Task.oneshot id ∈ es.sched.task_queue →
    id < es.sched.system_reads.length
  infl_oneshot : ∀ id : Nat, Task.oneshot id ∈ es.inflight →
    id < es.sched.system_reads.length
  reads_acct : ∀ r : Nat,
    es.sched.reads_held.getD r 0 = inflReadCount es r % 256
  writes_iff : ∀ w : Nat,
    w ∈ es.sched.writes_held ↔ 0 < inflWriters es w
  writers_le : ∀ w : Nat, inflWriters es w ≤ 1
  run_acct : es.sched.runnning_systems
    = (es.inflight.map (dispatch_count es.sched)).sum
  empty_stage : ∀ i : Nat, es.sched.stages.getD i [] = [] →
    es.sched.stage_reads.getD i [] = []
    ∧ es.sched.stage_writes.getD i [] = []

theorem create_temp_system_eq (system : SysObj) (st : Scheduler)
    (id : Nat) (st1 : Scheduler)
    (h : create_temp_system system st = some (id, st1)) :
    ∃ rs ws,
      system.reads.mapM (fun res => st.resource_id_mappings.lookup res)
        = some rs
      ∧ system.writes.mapM (fun res => st.resource_id_mappings.lookup res)
        = some ws
      ∧ id = st.temp_system_id_counter
      ∧ st1 = { st with
          temp_system_id_counter := st.temp_system_id_counter + 1
          system_reads := st.system_reads ++ [rs]
          system_writes := st.system_writes ++ [ws]
          systems := st.systems ++ [system] } := by
  unfold create_temp_system at h
  split at h
  next rs ws hrs hws =>
    injection h with h1
    injection h1 with hid hst
    exact ⟨rs, ws, hrs, hws, hid.symm, hst.symm⟩
  next => exact absurd h (by simp)

theorem execInv_release (es : ExecState) (t0 : Task)
    (hmem : t0 ∈ es.inflight) (hi : ExecInv es) :
    ExecInv ⟨{ es.sched with
        reads_held :=
          decReads (task_reads es.sched t0) es.sched.reads_held
        writes_held :=
          eraseWrites (task_writes es.sched t0) es.sched.writes_held
        runnning_systems :=
          es.sched.runnning_systems - dispatch_count es.sched t0 },
      es.inflight.erase t0⟩ := by
  have hbR : ∀ x ∈ task_reads es.sched t0,
      x < es.sched.reads_held.length := by
    cases t0 with
    | stage id => exact getD_bound_of_table _ _ hi.stage_reads_bound id
    | oneshot id => exact getD_bound_of_table _ _ hi.sys_reads_bound id
  refine ⟨?_, ?_, ?_, ?_, ?_, ?_, ?_, ?_, ?_, ?_, ?_, ?_, ?_, ?_, ?_, ?_, ?_⟩
  · exact decReads_entries _ _ hi.entries
  · intro l hl x hx
    show x < (decReads (task_reads es.sched t0) es.sched.reads_held).length
    rw [decReads_length]
    exact hi.sys_reads_bound l hl x hx
  · intro l hl x hx
    show x < (decReads (task_reads es.sched t0) es.sched.reads_held).length
    rw [decReads_length]
    exact hi.sys_writes_bound l hl x hx
  · intro l hl x hx
    show x < (decReads (task_reads es.sched t0) es.sched.reads_held).length
    rw [decReads_length]
    exact hi.stage_reads_bound l hl x hx
  · intro l hl x hx
    show x < (decReads (task_reads es.sched t0) es.sched.reads_held).length
    rw [decReads_length]
    exact hi.stage_writes_bound l hl x hx
  · intro p hp
    show p.2 < (decReads (task_reads es.sched t0) es.sched.reads_held).length
    rw [decReads_length]
    exact hi.map_bound p hp
  · exact hi.len_sys_reads
  · exact hi.len_sys_writes
  · exact hi.len_systems
  · exact hi.orig_le
  · exact hi.queue_oneshot
  · intro id hid
    exact hi.infl_oneshot id (List.mem_of_mem_erase hid)
  · intro r
    show (decReads (task_reads es.sched t0) es.sched.reads_held).getD r 0
        = ((es.inflight.erase t0).map
            (fun t => (task_reads es.sched t).count r)).sum % 256
    rw [decReads_getD _ _ _ hbR hi.entries, hi.reads_acct r]
    have hsplit :
        (es.inflight.map (fun t => (task_reads es.sched t).count r)).sum
          = (task_reads es.sched t0).count r
            + ((es.inflight.erase t0).map
                (fun t => (task_reads es.sched t).count r)).sum :=
      sum_map_erase_task
        (fun t => (task_reads es.sched t).count r) es.inflight t0 hmem
    rw [show inflReadCount es r
        = (es.inflight.map (fun t => (task_reads es.sched t).count r)).sum
      from rfl, hsplit]
    omega
  · intro w
    show w ∈ eraseWrites (task_writes es.sched t0) es.sched.writes_held
        ↔ 0 < (es.inflight.erase t0).countP
            (fun t => decide (w ∈ task_writes es.sched t))
    rw [eraseWrites_eq, Finset.mem_sdiff, List.mem_toFinset,
      hi.writes_iff w]
    have hsplit := countP_erase_task
      (fun t => decide (w ∈ task_writes es.sched t)) es.inflight t0 hmem
    have hle := hi.writers_le w
    rw [show inflWriters es w
        = es.inflight.countP (fun t => decide (w ∈ task_writes es.sched t))
      from rfl] at hle ⊢
    rw [hsplit] at hle ⊢
    by_cases hw : w ∈ task_writes es.sched t0
    · rw [if_pos (by simp [hw])] at hle ⊢
      constructor
      · rintro ⟨-, hq⟩
        exact absurd hw hq
      · intro hpos
        exact absurd hpos (by omega)
    · rw [if_neg (by simp [hw])] at hle ⊢
      simp [hw]
  · intro w
    show (es.inflight.erase t0).countP
        (fun t => decide (w ∈ task_writes es.sched t)) ≤ 1
    have hsplit := countP_erase_task
      (fun t => decide (w ∈ task_writes es.sched t)) es.inflight t0 hmem
    have hle := hi.writers_le w
    rw [show inflWriters es w
        = es.inflight.countP (fun t => decide (w ∈ task_writes es.sched t))
      from rfl] at hle
    rw [hsplit] at hle
    omega
  · show es.sched.runnning_systems - dispatch_count es.sched t0
      = ((es.inflight.erase t0).map (dispatch_count es.sched)).sum
    have hsplit := sum_map_erase_task
      (dispatch_count es.sched) es.inflight t0 hmem
    rw [hi.run_acct, hsplit]
    omega
  · exact hi.empty_stage

theorem execInv_extend (es : ExecState) (sys : SysObj) (rs ws : List Nat)
    (hmrs : sys.reads.mapM
      (fun res => es.sched.resource_id_mappings.lookup res) = some rs)
    (hmws : sys.writes.mapM
      (fun res => es.sched.resource_id_mappings.lookup res) = some ws)
    (hi : ExecInv es) :
    ExecInv ⟨{ es.sched with
        task_queue := es.sched.task_queue
          ++ [Task.oneshot es.sched.temp_system_id_counter]
        temp_system_id_counter := es.sched.temp_system_id_counter + 1
        system_reads := es.sched.system_reads ++ [rs]
        system_writes := es.sched.system_writes ++ [ws]
        systems := es.sched.systems ++ [sys] },
      es.inflight⟩ := by
  have htr : ∀ t ∈ es.inflight,
      task_reads { es.sched with
        task_queue := es.sched.task_queue
          ++ [Task.oneshot es.sched.temp_system_id_counter]
        temp_system_id_counter := es.sched.temp_system_id_counter + 1
        system_reads := es.sched.system_reads ++ [rs]
        system_writes := es.sched.system_writes ++ [ws]
        systems := es.sched.systems ++ [sys] } t
        = task_reads es.sched t := by
    intro t ht
    cases t with
    | stage i => rfl
    | oneshot i =>
      show (es.sched.system_reads ++ [rs]).getD i []
          = es.sched.system_reads.getD i []
      exact getD_append_lt _ _ i (hi.infl_oneshot i ht)
  have htw : ∀ t ∈ es.inflight,
      task_writes { es.sched with
        task_queue := es.sched.task_queue
          ++ [Task.oneshot es.sched.temp_system_id_counter]
        temp_system_id_counter := es.sched.temp_system_id_counter + 1
        system_reads := es.sched.system_reads ++ [rs]
        system_writes := es.sched.system_writes ++ [ws]
        systems := es.sched.systems ++ [sys] } t
        = task_writes es.sched t := by
    intro t ht
    cases t with
    | stage i => rfl
    | oneshot i =>
      show (es.sched.system_writes ++ [ws]).getD i []
          = es.sched.system_writes.getD i []
      refine getD_append_lt _ _ i ?_
      rw [show es.sched.system_writes.length
          = es.sched.system_reads.length by
        rw [hi.len_sys_writes, hi.len_sys_reads]]
      exact hi.infl_oneshot i ht
  have hsumr : ∀ r : Nat,
      inflReadCount ⟨{ es.sched with
        task_queue := es.sched.task_queue
          ++ [Task.oneshot es.sched.temp_system_id_counter]
        temp_system_id_counter := es.sched.temp_system_id_counter + 1
        system_reads := es.sched.system_reads ++ [rs]
        system_writes := es.sched.system_writes ++ [ws]
        systems := es.sched.systems ++ [sys] },
        es.inflight⟩ r = inflReadCount es r := by
    intro r
    refine congrArg List.sum (List.map_congr_left ?_)
    intro t ht
    show (task_reads _ t).count r = (task_reads es.sched t).count r
    rw [htr t ht]
  have hcw : ∀ w : Nat,
      inflWriters ⟨{ es.sched with
        task_queue := es.sched.task_queue
          ++ [Task.oneshot es.sched.temp_system_id_counter]
        temp_system_id_counter := es.sched.temp_system_id_counter + 1
        system_reads := es.sched.system_reads ++ [rs]
        system_writes := es.sched.system_writes ++ [ws]
        systems := es.sched.systems ++ [sys] },
        es.inflight⟩ w = inflWriters es w := by
    intro w
    refine countP_congr_task _ _ es.inflight ?_
    intro t ht
    show decide (w ∈ task_writes _ t) = decide (w ∈ task_writes es.sched t)
    rw [htw t ht]
  refine ⟨?_, ?_, ?_, ?_, ?_, ?_, ?_, ?_, ?_, ?_, ?_, ?_, ?_, ?_, ?_, ?_, ?_⟩
  · exact hi.entries
  · intro l hl x hx
    show x < es.sched.reads_held.length
    rcases List.mem_append.mp hl with hl2 | hl2
    · exact hi.sys_reads_bound l hl2 x hx
    · have hleq : l = rs := by simpa using hl2
      rw [hleq] at hx
      obtain ⟨h0, hh0, hlk⟩ := mapM_some_mem _ sys.reads rs hmrs x hx
      exact hi.map_bound (h0, x) (mem_of_lookup _ _ _ hlk)
  · intro l hl x hx
    show x < es.sched.reads_held.length
    rcases List.mem_append.mp hl with hl2 | hl2
    · exact hi.sys_writes_bound l hl2 x hx
    · have hleq : l = ws := by simpa using hl2
      rw [hleq] at hx
      obtain ⟨h0, hh0, hlk⟩ := mapM_some_mem _ sys.writes ws hmws x hx
      exact hi.map_bound (h0, x) (mem_of_lookup _ _ _ hlk)
  · exact hi.stage_reads_bound
  · exact hi.stage_writes_bound
  · exact hi.map_bound
  · show (es.sched.system_reads ++ [rs]).length
        = es.sched.temp_system_id_counter + 1
    rw [List.length_append, hi.len_sys_reads]
    rfl
  · show (es.sched.system_writes ++ [ws]).length
        = es.sched.temp_system_id_counter + 1
    rw [List.length_append, hi.len_sys_writes]
    rfl
  · show (es.sched.systems ++ [sys]).length
        = es.sched.temp_system_id_counter + 1
    rw [List.length_append, hi.len_systems]
    rfl
  · show es.sched.original_system_count
        ≤ es.sched.temp_system_id_counter + 1
    have := hi.orig_le
    omega
  · intro id hid
    show id < (es.sched.system_reads ++ [rs]).length
    rw [List.length_append, List.length_singleton]
    rcases List.mem_append.mp hid with h2 | h2
    · have := hi.queue_oneshot id h2
      omega
    · have h3 : Task.oneshot id
          = Task.oneshot es.sched.temp_system_id_counter := by
        simpa using h2
      injection h3 with h4
      subst h4
      have := hi.len_sys_reads
      omega
  · intro id hid
    show id < (es.sched.system_reads ++ [rs]).length
    rw [List.length_append, List.length_singleton]
    have := hi.infl_oneshot id hid
    omega
  · intro r
    rw [hsumr r]
    exact hi.reads_acct r
  · intro w
    rw [hcw w]
    exact hi.writes_iff w
  · intro w
    rw [hcw w]
    exact hi.writers_le w
  · have hdc : ∀ t ∈ es.inflight,
        dispatch_count { es.sched with
          task_queue := es.sched.task_queue
            ++ [Task.oneshot es.sched.temp_system_id_counter]
          temp_system_id_counter := es.sched.temp_system_id_counter + 1
          system_reads := es.sched.system_reads ++ [rs]
          system_writes := es.sched.system_writes ++ [ws]
          systems := es.sched.systems ++ [sys] } t
          = dispatch_count es.sched t := by
      intro t ht
      cases t with
      | stage i => rfl
      | oneshot i => rfl
    show es.sched.runnning_systems = _
    rw [List.map_congr_left hdc]
    exact hi.run_acct
  · exact hi.empty_stage

theorem execInv_handle (es : ExecState) (msg : TaskMessage) (n : Nat)
    (st1 : Scheduler) (hv : msg_valid es msg)
    (hw : wait_for_completion es.sched msg = some (n, st1))
    (hi : ExecInv es) :
    ExecInv ⟨{ st1 with runnning_systems := st1.runnning_systems - n },
      inflight_after es.inflight msg⟩ := by
  cases msg with
  | SystemComplete id =>
    injection hw with h1
    injection h1 with hn hst
    subst hn
    subst hst
    exact execInv_release es (Task.oneshot id) hv hi
  | StageComplete id =>
    injection hw with h1
    injection h1 with hn hst
    subst hn
    subst hst
    exact execInv_release es (Task.stage id) hv hi
  | ScheduleOneshot sid sys strat =>
    cases strat with
    | Reserved k => exact absurd hw (by simp [wait_for_completion])
    | Relaxed =>
      have he : wait_for_completion es.sched
          (.ScheduleOneshot sid sys .Relaxed)
          = match create_temp_system sys es.sched with
            | some (idn, st2) =>
              some (0, { st2 with
                task_queue := st2.task_queue ++ [Task.oneshot idn] })
            | none => none := rfl
      rw [he] at hw
      cases hc : create_temp_system sys es.sched with
      | none =>
        rw [hc] at hw
        cases hw
      | some p =>
        obtain ⟨idn, st2⟩ := p
        rw [hc] at hw
        injection hw with h1
        injection h1 with hn hst
        subst hn
        obtain ⟨rs, ws, hmrs, hmws, hid, hst2⟩ :=
          create_temp_system_eq sys es.sched idn st2 hc
        subst hid
        subst hst2
        subst hst
        exact execInv_extend es sys rs ws hmrs hmws hi

theorem execInv_acquire (es : ExecState) (t : Task) (rest : List Task)
    (led : Ledger)
    (hq : es.sched.task_queue = t :: rest)
    (hto : try_obtain_resources (task_reads es.sched t)
      (task_writes es.sched t)
      ⟨es.sched.reads_held, es.sched.writes_held⟩ = (true, led))
    (hi : ExecInv es) :
    ExecInv ⟨{ es.sched with
        task_queue := rest
        reads_held := led.reads_held
        writes_held := led.writes_held
        runnning_systems :=
          es.sched.runnning_systems + dispatch_count es.sched t },
      t :: es.inflight⟩ := by
  have h1 : (try_obtain_resources (task_reads es.sched t)
      (task_writes es.sched t)
      ⟨es.sched.reads_held, es.sched.writes_held⟩).1 = true := by
    rw [hto]
  obtain ⟨heq, hnw, hzero⟩ := try_obtain_success _ _ _ h1
  have hled : led = ⟨incReads (task_reads es.sched t) es.sched.reads_held,
      setWrites (task_writes es.sched t) es.sched.writes_held⟩ := by
    have h2 := congrArg Prod.snd hto
    rw [heq] at h2
    exact h2.symm
  subst hled
  have hbR : ∀ x ∈ task_reads es.sched t,
      x < es.sched.reads_held.length := by
    cases t with
    | stage id => exact getD_bound_of_table _ _ hi.stage_reads_bound id
    | oneshot id => exact getD_bound_of_table _ _ hi.sys_reads_bound id
  refine ⟨?_, ?_, ?_, ?_, ?_, ?_, ?_, ?_, ?_, ?_, ?_, ?_, ?_, ?_, ?_, ?_, ?_⟩
  · exact incReads_entries _ _ hi.entries
  · intro l hl x hx
    show x < (incReads (task_reads es.sched t) es.sched.reads_held).length
    rw [incReads_length]
    exact hi.sys_reads_bound l hl x hx
  · intro l hl x hx
    show x < (incReads (task_reads es.sched t) es.sched.reads_held).length
    rw [incReads_length]
    exact hi.sys_writes_bound l hl x hx
  · intro l hl x hx
    show x < (incReads (task_reads es.sched t) es.sched.reads_held).length
    rw [incReads_length]
    exact hi.stage_reads_bound l hl x hx
  · intro l hl x hx
    show x < (incReads (task_reads es.sched t) es.sched.reads_held).length
    rw [incReads_length]
    exact hi.stage_writes_bound l hl x hx
  · intro p hp
    show p.2 < (incReads (task_reads es.sched t) es.sched.reads_held).length
    rw [incReads_length]
    exact hi.map_bound p hp
  · exact hi.len_sys_reads
  · exact hi.len_sys_writes
  · exact hi.len_systems
  · exact hi.orig_le
  · intro id hid
    refine hi.queue_oneshot id ?_
    rw [hq]
    exact List.mem_cons_of_mem _ hid
  · intro id hid
    rcases List.mem_cons.mp hid with hht | hht
    · refine hi.queue_oneshot id ?_
      rw [hq, ← hht]
      exact List.mem_cons_self _ _
    · exact hi.infl_oneshot id hht
  · intro r
    show (incReads (task_reads es.sched t) es.sched.reads_held).getD r 0
        = ((t :: es.inflight).map
            (fun u => (task_reads es.sched u).count r)).sum % 256
    have hhead : ((t :: es.inflight).map
        (fun u => (task_reads es.sched u).count r)).sum
          = (task_reads es.sched t).count r
            + (es.inflight.map
                (fun u => (task_reads es.sched u).count r)).sum := by
      rw [List.map_cons, List.sum_cons]
    rw [hhead, incReads_getD _ _ _ hbR hi.entries, hi.reads_acct r,
      show inflReadCount es r
        = (es.inflight.map (fun u => (task_reads es.sched u).count r)).sum
      from rfl]
    omega
  · intro w
    show w ∈ setWrites (task_writes es.sched t) es.sched.writes_held
        ↔ 0 < (t :: es.inflight).countP
            (fun u => decide (w ∈ task_writes es.sched u))
    rw [setWrites_eq, Finset.mem_union, List.mem_toFinset, hi.writes_iff w,
      show inflWriters es w
        = es.inflight.countP (fun u => decide (w ∈ task_writes es.sched u))
      from rfl, List.countP_cons]
    by_cases hw : w ∈ task_writes es.sched t
    · rw [if_pos (by simp [hw])]
      constructor
      · intro _
        omega
      · intro _
        exact Or.inr hw
    · rw [if_neg (by simp [hw])]
      simp [hw]
  · intro w
    show (t :: es.inflight).countP
        (fun u => decide (w ∈ task_writes es.sched u)) ≤ 1
    rw [List.countP_cons]
    by_cases hw : w ∈ task_writes es.sched t
    · have hnw2 : w ∉ es.sched.writes_held :=
        hnw w (List.mem_append_right _ hw)
      have h0 : es.inflight.countP
          (fun u => decide (w ∈ task_writes es.sched u)) = 0 := by
        rcases Nat.eq_zero_or_pos (es.inflight.countP
          (fun u => decide (w ∈ task_writes es.sched u))) with hz | hpos
        · exact hz
        · exact absurd ((hi.writes_iff w).mpr hpos) hnw2
      rw [h0, if_pos (by simp [hw])]
    · rw [if_neg (by simp [hw])]
      have := hi.writers_le w
      rw [show inflWriters es w
          = es.inflight.countP
              (fun u => decide (w ∈ task_writes es.sched u))
        from rfl] at this
      omega
  · show es.sched.runnning_systems + dispatch_count es.sched t
      = ((t :: es.inflight).map (dispatch_count es.sched)).sum
    rw [List.map_cons, List.sum_cons, hi.run_acct]
    omega
  · exact hi.empty_stage

theorem execInv_step (es esn : ExecState) (hstep : ExecStep es esn)
    (hi : ExecInv es) : ExecInv esn := by
  cases hstep with
  | run_ok t rest led hq hto => exact execInv_acquire es t rest led hq hto hi
  | run_blocked t rest msg n st1 hq hf hv hw =>
    exact execInv_handle es msg n st1 hv hw hi
  | wait_drain msg n st1 hq hr hv hw =>
    exact execInv_handle es msg n st1 hv hw hi

theorem mem_getD_flatten (deps : List (List Nat)) (k h : Nat)
    (hm : h ∈ deps.getD k []) : h ∈ deps.flatten := by
  by_cases hk : k < deps.length
  · have he : deps.getD k [] = deps[k] := by
      rw [List.getD_eq_getElem?_getD, List.getElem?_eq_getElem hk]
      rfl
    rw [he] at hm
    exact List.mem_flatten.mpr ⟨deps[k], List.getElem_mem hk, hm⟩
  · rw [table_getD_oob _ _ (by omega)] at hm
    simp at hm

theorem lookupId_lt_of_mem (w : List Nat) (h : Nat) (hw : h ∈ w) :
    lookupId (internHandles w) h < (internHandles w).length := by
  obtain ⟨v, hv⟩ :=
    Option.isSome_iff_exists.mp (internHandles_lookup_isSome w h hw)
  rw [lookupId, hv]
  exact internHandles_snd_lt w (h, v) (mem_of_lookup _ _ _ hv)

theorem sysDeps_elem_lt (deps : List (List Nat)) (walk : List Nat) (k : Nat)
    (hsub : ∀ h ∈ deps.flatten, h ∈ walk) :
    ∀ x ∈ sysDeps deps (internHandles walk) k,
      x < (internHandles walk).length := by
  intro x hx
  obtain ⟨h0, hh0, rfl⟩ := List.mem_map.mp hx
  exact lookupId_lt_of_mem walk h0 (hsub h0 (mem_getD_flatten deps k h0 hh0))

theorem buildStages_system_reads_mem (rd wd : List (List Nat))
    (m : List (Nat × Nat)) (ss : List (List SysObj)) (c : Nat) :
    ∀ l ∈ (buildStages rd wd m ss c).system_reads,
      ∃ k, l = sysDeps rd m k := by
  rw [buildStages_system_reads]
  intro l hl
  obtain ⟨k, hk, rfl⟩ := List.mem_map.mp hl
  exact ⟨c + k, rfl⟩

theorem buildStages_system_writes_mem (rd wd : List (List Nat))
    (m : List (Nat × Nat)) (ss : List (List SysObj)) (c : Nat) :
    ∀ l ∈ (buildStages rd wd m ss c).system_writes,
      ∃ k, l = sysDeps wd m k := by
  rw [buildStages_system_writes]
  intro l hl
  obtain ⟨k, hk, rfl⟩ := List.mem_map.mp hl
  exact ⟨c + k, rfl⟩

theorem buildStages_stage_reads_mem (rd wd : List (List Nat))
    (m : List (Nat × Nat)) : ∀ (ss : List (List SysObj)) (c : Nat),
    ∀ l ∈ (buildStages rd wd m ss c).stage_reads,
      ∃ ids : List Nat, l = (ids.map (sysDeps rd m)).flatten := by
  intro ss
  induction ss with
  | nil =>
    intro c l hl
    simp [buildStages] at hl
  | cons stage rest ih =>
    intro c l hl
    have hl2 : l ∈ (((List.range stage.length).map
          (fun j => c + j)).map (sysDeps rd m)).flatten
        :: (buildStages rd wd m rest (c + stage.length)).stage_reads := hl
    rcases List.mem_cons.mp hl2 with h | h
    · exact ⟨(List.range stage.length).map (fun j => c + j), h⟩
    · exact ih (c + stage.length) l h

theorem buildStages_stage_writes_mem (rd wd : List (List Nat))
    (m : List (Nat × Nat)) : ∀ (ss : List (List SysObj)) (c : Nat),
    ∀ l ∈ (buildStages rd wd m ss c).stage_writes,
      ∃ ids : List Nat, l = (ids.map (sysDeps wd m)).flatten := by
  intro ss
  induction ss with
  | nil =>
    intro c l hl
    simp [buildStages] at hl
  | cons stage rest ih =>
    intro c l hl
    have hl2 : l ∈ (((List.range stage.length).map
          (fun j => c + j)).map (sysDeps wd m)).flatten
        :: (buildStages rd wd m rest (c + stage.length)).stage_writes := hl
    rcases List.mem_cons.mp hl2 with h | h
    · exact ⟨(List.range stage.length).map (fun j => c + j), h⟩
    · exact ih (c + stage.length) l h

theorem execInv_init (stages : List (List SysObj))
    (rd wd : List (List Nat)) :
    ExecInv (exec_init (Scheduler.new stages rd wd)) := by
  refine ⟨?_, ?_, ?_, ?_, ?_, ?_, ?_, ?_, ?_, ?_, ?_, ?_, ?_, ?_, ?_, ?_, ?_⟩
  · intro x hx
    have hx2 : x ∈ List.replicate
        (internHandles (rd.flatten ++ wd.flatten)).length 0 := hx
    have := List.eq_of_mem_replicate hx2
    omega
  · intro l hl x hx
    show x < (List.replicate
      (internHandles (rd.flatten ++ wd.flatten)).length 0).length
    rw [List.length_replicate]
    obtain ⟨k, rfl⟩ := buildStages_system_reads_mem rd wd
      (internHandles (rd.flatten ++ wd.flatten)) stages 0 l hl
    exact sysDeps_elem_lt rd (rd.flatten ++ wd.flatten) k
      (fun h hh => List.mem_append_left _ hh) x hx
  · intro l hl x hx
    show x < (List.replicate
      (internHandles (rd.flatten ++ wd.flatten)).length 0).length
    rw [List.length_replicate]
    obtain ⟨k, rfl⟩ := buildStages_system_writes_mem rd wd
      (internHandles (rd.flatten ++ wd.flatten)) stages 0 l hl
    exact sysDeps_elem_lt wd (rd.flatten ++ wd.flatten) k
      (fun h hh => List.mem_append_right _ hh) x hx
  · intro l hl x hx
    show x < (List.replicate
      (internHandles (rd.flatten ++ wd.flatten)).length 0).length
    rw [List.length_replicate]
    obtain ⟨ids, rfl⟩ := buildStages_stage_reads_mem rd wd
      (internHandles (rd.flatten ++ wd.flatten)) stages 0 l hl
    obtain ⟨sub, hsub, hxs⟩ := List.mem_flatten.mp hx
    obtain ⟨k, hk, rfl⟩ := List.mem_map.mp hsub
    exact sysDeps_elem_lt rd (rd.flatten ++ wd.flatten) k
      (fun h hh => List.mem_append_left _ hh) x hxs
  · intro l hl x hx
    show x < (List.replicate
      (internHandles (rd.flatten ++ wd.flatten)).length 0).length
    rw [List.length_replicate]
    obtain ⟨ids, rfl⟩ := buildStages_stage_writes_mem rd wd
      (internHandles (rd.flatten ++ wd.flatten)) stages 0 l hl
    obtain ⟨sub, hsub, hxs⟩ := List.mem_flatten.mp hx
    obtain ⟨k, hk, rfl⟩ := List.mem_map.mp hsub
    exact sysDeps_elem_lt wd (rd.flatten ++ wd.flatten) k
      (fun h hh => List.mem_append_right _ hh) x hxs
  · intro p hp
    show p.2 < (List.replicate
      (internHandles (rd.flatten ++ wd.flatten)).length 0).length
    rw [List.length_replicate]
    exact internHandles_snd_lt _ p hp
  · show (buildStages rd wd (internHandles (rd.flatten ++ wd.flatten))
        stages 0).system_reads.length = stages.flatten.length
    rw [buildStages_system_reads, List.length_map, List.length_range,
      List.length_flatten]
  · show (buildStages rd wd (internHandles (rd.flatten ++ wd.flatten))
        stages 0).system_writes.length = stages.flatten.length
    rw [buildStages_system_writes, List.length_map, List.length_range,
      List.length_flatten]
  · rfl
  · exact Nat.le_refl _
  · intro id hid
    exfalso
    have hid2 : Task.oneshot id ∈ (List.range (buildStages rd wd
        (internHandles (rd.flatten ++ wd.flatten))
        stages 0).stage_systems.length).map Task.stage := hid
    obtain ⟨j, hj, hcon⟩ := List.mem_map.mp hid2
    exact Task.noConfusion hcon
  · intro id hid
    simp [exec_init] at hid
  · intro r
    show (List.replicate
        (internHandles (rd.flatten ++ wd.flatten)).length 0).getD r 0 = _
    rw [getD_replicate_zero]
    rfl
  · intro w
    show w ∈ (∅ : Finset Nat) ↔ 0 < List.countP _ []
    simp
  · intro w
    show List.countP _ [] ≤ 1
    simp
  · rfl
  · intro i h0
    have h0b : (buildStages rd wd (internHandles (rd.flatten ++ wd.flatten))
        stages 0).stage_systems.getD i [] = [] := h0
    constructor
    · show (buildStages rd wd (internHandles (rd.flatten ++ wd.flatten))
          stages 0).stage_reads.getD i [] = []
      rw [buildStages_stage_reads_getD, h0b]
      rfl
    · show (buildStages rd wd (internHandles (rd.flatten ++ wd.flatten))
          stages 0).stage_writes.getD i [] = []
      rw [buildStages_stage_writes_getD, h0b]
      rfl

/-- C4: for every scheduler built by `Scheduler::new` and every
completed run of `execute` — every state reachable from the start of
a dispatch whose task queue is empty and whose running-system count is
zero, i.e. the loop's exit condition — after the final
`reset_temp_systems` the held-write set is empty, every reader count
is zero, the task queue is empty, the three per-system tables are
truncated back to `original_system_count`, and the temp-id counter
equals `original_system_count`. -/
theorem execute_clean (stages : List (List SysObj)) (rd wd : List (List Nat))
    (es : ExecState)
    (hreach : Relation.ReflTransGen ExecStep
      (exec_init (Scheduler.new stages rd wd)) es)
    (hq : es.sched.task_queue = [])
    (hr : es.sched.runnning_systems = 0) :
    (reset_temp_systems es.sched).writes_held = ∅
    ∧ (∀ i : Nat, (reset_temp_systems es.sched).reads_held.getD i 0 = 0)
    ∧ (reset_temp_systems es.sched).task_queue = []
    ∧ (reset_temp_systems es.sched).systems.length
        = (reset_temp_systems es.sched).original_system_count
    ∧ (reset_temp_systems es.sched).system_reads.length
        = (reset_temp_systems es.sched).original_system_count
    ∧ (reset_temp_systems es.sched).system_writes.length
        = (reset_temp_systems es.sched).original_system_count
    ∧ (reset_temp_systems es.sched).temp_system_id_counter
        = (reset_temp_systems es.sched).original_system_count := by
  have hinv : ExecInv es := by
    clear hq hr
    induction hreach with
    | refl => exact execInv_init stages rd wd
    | tail _ hstep ih => exact execInv_step _ _ hstep ih
  have hzero : ∀ t ∈ es.inflight, dispatch_count es.sched t = 0 := by
    intro t ht
    have hsum := hinv.run_acct
    rw [hr] at hsum
    exact List.sum_eq_zero_iff.mp hsum.symm _
      (List.mem_map_of_mem (dispatch_count es.sched) ht)
  have hemptyRW : ∀ t ∈ es.inflight,
      task_reads es.sched t = [] ∧ task_writes es.sched t = [] := by
    intro t ht
    cases t with
    | oneshot id => exact absurd (hzero _ ht) (by simp [dispatch_count])
    | stage i =>
      refine hinv.empty_stage i ?_
      have hlen := hzero _ ht
      rw [show dispatch_count es.sched (Task.stage i)
          = (es.sched.stages.getD i []).length from rfl] at hlen
      exact List.length_eq_zero.mp hlen
  have hreads : ∀ i : Nat, es.sched.reads_held.getD i 0 = 0 := by
    intro i
    rw [hinv.reads_acct i]
    have hz : inflReadCount es i = 0 := by
      refine List.sum_eq_zero ?_
      intro x hx
      obtain ⟨t, ht, rfl⟩ := List.mem_map.mp hx
      rw [(hemptyRW t ht).1]
      rfl
    rw [hz]
  have hwh : es.sched.writes_held = ∅ := by
    refine Finset.eq_empty_iff_forall_not_mem.mpr ?_
    intro w hwmem
    have hpos := (hinv.writes_iff w).mp hwmem
    have hz : inflWriters es w = 0 := by
      refine List.countP_eq_zero.mpr ?_
      intro t ht
      simp [(hemptyRW t ht).2]
    omega
  refine ⟨hwh, hreads, hq, ?_, ?_, ?_, rfl⟩
  · show (es.sched.systems.take es.sched.original_system_count).length
      = es.sched.original_system_count
    rw [List.length_take]
    have h1 := hinv.len_systems
    have h2 := hinv.orig_le
    omega
  · show (es.sched.system_reads.take es.sched.original_system_count).length
      = es.sched.original_system_count
    rw [List.length_take]
    have h1 := hinv.len_sys_reads
    have h2 := hinv.orig_le
    omega
  · show (es.sched.system_writes.take es.sched.original_system_count).length
      = es.sched.original_system_count
    rw [List.length_take]
    have h1 := hinv.len_sys_writes
    have h2 := hinv.orig_le
    omega

/-- Witness for C4 at a concrete input: the empty scheduler is already
terminal at the start of a dispatch, and the conclusions evaluate. -/
theorem execute_clean_witness :
    (reset_temp_systems (exec_init (Scheduler.new [] [] [])).sched).writes_held
      = ∅
    ∧ (reset_temp_systems
        (exec_init (Scheduler.new [] [] [])).sched).task_queue = []
    ∧ (reset_temp_systems
        (exec_init (Scheduler.new [] [] [])).sched).reads_held.getD 0 0
      = 0 := by
  have h := execute_clean [] [] [] (exec_init (Scheduler.new [] [] []))
    Relation.ReflTransGen.refl rfl rfl
  exact ⟨h.1, h.2.2.1, h.2.1 0⟩
